import Mathlib

/-!
Verification development for the WorldGen hexagonal-terrain generator.

The TypeScript sources are shallowly embedded over exact rationals:
JavaScript numbers become `ℚ`, nullable numbers become `Option ℕ`,
arrays become `List`s, and the mutable `visited` sets become `Finset ℕ`.
The square roots and the externally supplied noise function are opaque
to the algorithms under study, so they enter the embedding as explicit
parameters; theorems state the contracts they are assumed to satisfy
(monotonicity of the square root, the noise range `[-1,1]`), and all
witnesses instantiate them with concrete computable rationals.
Recursions that the source bounds by a growing visited set are embedded
with an explicit fuel argument; the lemmas show the fuel used by the
embedding is sufficient, so the fuel branch is unreachable.
-/

namespace WorldGen

/-- Pixel-space point `{x, y}` from the sources. -/
structure Point where
  x : ℚ
  y : ℚ
deriving DecidableEq, Repr

/-- The `Hex` record of `worldGenerator.ts`: axial coordinates, pixel
center, elevation, land flag and optional region id. -/
structure Hex where
  q : ℤ
  r : ℤ
  x : ℚ
  y : ℚ
  elevation : ℚ
  isLand : Bool
  region : Option ℕ := none
deriving DecidableEq, Repr

/-- The pointy-top axial direction table shared by all modules. -/
def directions : List (ℤ × ℤ) :=
  [(1, 0), (0, 1), (-1, 1), (-1, 0), (0, -1), (1, -1)]

/-- `hexIndex(q, r, cols) = r * cols + q`. -/
def hexIndex (q r cols : ℤ) : ℤ := r * cols + q

/-- The bounds test `nq >= 0 && nq < cols && nr >= 0 && nr < rows`. -/
def inBounds (cols rows : ℕ) (q r : ℤ) : Bool :=
  0 ≤ q && q < (cols : ℤ) && 0 ≤ r && r < (rows : ℤ)

/-- Land flag of the hex stored at index `i` (`false` past the end). -/
def landAt (hexes : List Hex) (i : ℕ) : Bool :=
  ((hexes.get? i).map Hex.isLand).getD false

/-- Elevation of the hex stored at index `i` (`0` past the end). -/
def elevAt (hexes : List Hex) (i : ℕ) : ℚ :=
  ((hexes.get? i).map Hex.elevation).getD 0

/-! ### Chaikin smoothing

The repository contains two variants.  `chaikinSmoothClosed` is the
exported smoother of the unnamed coastline module: it wraps around via
`pts[(i + 1) % pts.length]`, subdividing every edge of the closed
polygon.  `chaikinSmoothOpen` is the smoother private to `coastline.ts`
and to the river module: it iterates `i < pts.length - 1` and never
forms the wrap-around edge. -/

/-- One closed-variant pass: for each `i`, the edge from `pts[i]` to
`pts[(i+1) % len]` yields `Q = 0.75·p0 + 0.25·p1` and
`R = 0.25·p0 + 0.75·p1`. -/
def chaikinClosedPass (pts : List Point) : List Point :=
  ((List.range pts.length).map fun i =>
    let p0 := pts.getD i ⟨0, 0⟩
    let p1 := pts.getD ((i + 1) % pts.length) ⟨0, 0⟩
    [⟨3/4 * p0.x + 1/4 * p1.x, 3/4 * p0.y + 1/4 * p1.y⟩,
     ⟨1/4 * p0.x + 3/4 * p1.x, 1/4 * p0.y + 3/4 * p1.y⟩]).flatten

/-- One open-variant pass: only the `pts.length - 1` consecutive edges
are subdivided; there is no wrap-around edge. -/
def chaikinOpenPass (pts : List Point) : List Point :=
  ((List.range (pts.length - 1)).map fun i =>
    let p0 := pts.getD i ⟨0, 0⟩
    let p1 := pts.getD (i + 1) ⟨0, 0⟩
    [⟨3/4 * p0.x + 1/4 * p1.x, 3/4 * p0.y + 1/4 * p1.y⟩,
     ⟨1/4 * p0.x + 3/4 * p1.x, 1/4 * p0.y + 3/4 * p1.y⟩]).flatten

/-- `chaikinSmooth` of the unnamed coastline module (closed variant),
iterated for the requested number of passes. -/
def chaikinSmoothClosed (pts : List Point) (passes : ℕ) : List Point :=
  chaikinClosedPass^[passes] pts

/-- `chaikinSmooth` of `coastline.ts` and of the river module (open
variant), iterated for the requested number of passes. -/
def chaikinSmoothOpen (pts : List Point) (passes : ℕ) : List Point :=
  chaikinOpenPass^[passes] pts

/-- The config record of `generateRivers`, with the source defaults. -/
structure RiverConfig where
  cols : ℕ
  rows : ℕ
  minSourceElev : ℚ := 1/2
  mainRiverAccum : ℚ := 20
  tributaryAccum : ℚ := 5
  secondaryStreamAccum : ℚ := 15
  tertiaryStreamAccum : ℚ := 10
  riverWidth : ℚ := 2
  smooth : ℕ := 2
deriving Repr

/-- Step 1 body for hex `i`: fold the direction table keeping the
current minimum elevation (seeded with the hex's own elevation) and the
index attaining it; water hexes keep `flowDir = none`. -/
def flowStep (hexes : List Hex) (cols rows : ℕ) (hex : Hex)
    (st : ℚ × Option ℕ) (d : ℤ × ℤ) : ℚ × Option ℕ :=
  let nq := hex.q + d.1
  let nr := hex.r + d.2
  if inBounds cols rows nq nr then
    let ni := (hexIndex nq nr cols).toNat
    match hexes.get? ni with
    | some nhex => if nhex.elevation < st.1 then (nhex.elevation, some ni) else st
    | none => st
  else st

def flowDirOf (hexes : List Hex) (cols rows : ℕ) (i : ℕ) : Option ℕ :=
  match hexes.get? i with
  | none => none
  | some hex =>
    if hex.isLand then
      (directions.foldl (flowStep hexes cols rows hex) (hex.elevation, none)).2
    else none

/-- The `flowDirs` array: one entry per input hex. -/
def flowDirs (hexes : List Hex) (cols rows : ℕ) : List (Option ℕ) :=
  (List.range hexes.length).map (flowDirOf hexes cols rows)

/-- Functional reading of `flowDirs`: `none` beyond the array. -/
def flowNext (hexes : List Hex) (cols rows : ℕ) (i : ℕ) : Option ℕ :=
  if i < hexes.length then flowDirOf hexes cols rows i else none

/-- The recursive `visit` of step 2: skip if visited, otherwise mark
visited, recurse on the downstream hex, then append the hex to the
postorder list.  The source recursion is bounded by the growing visited
set; here the same bound appears as a fuel argument, and call sites pass
fuel exceeding the number of hexes so that the fuel never runs out. -/
def visitDFS (σ : ℕ → Option ℕ) : ℕ → ℕ → Finset ℕ × List ℕ → Finset ℕ × List ℕ
  | 0, _, st => st
  | fuel + 1, idx, st =>
    if idx ∈ st.1 then st
    else
      let st1 : Finset ℕ × List ℕ := (insert idx st.1, st.2)
      let st2 := match σ idx with
        | some down => visitDFS σ fuel down st1
        | none => st1
      (st2.1, st2.2 ++ [idx])

/-- Step 2 driver: visit every land hex in index order, producing the
visited set and the postorder list `order`. -/
def buildOrder (hexes : List Hex) (cols rows : ℕ) : Finset ℕ × List ℕ :=
  (List.range hexes.length).foldl
    (fun st i => if landAt hexes i then
        visitDFS (flowNext hexes cols rows) (hexes.length + 1) i st
      else st)
    (∅, [])

/-- The initial accumulation: `1` on land hexes, `0` elsewhere. -/
def flowAccumInit (hexes : List Hex) (i : ℕ) : ℕ :=
  if landAt hexes i then 1 else 0

/-- The accumulation sweep: for each index of the reversed postorder,
add its accumulation to its downstream target. -/
def accumulate (σ : ℕ → Option ℕ) (order : List ℕ) (acc : ℕ → ℕ) : ℕ → ℕ :=
  order.foldl
    (fun a idx =>
      match σ idx with
      | some down => fun j => if j = down then a j + a idx else a j
      | none => a)
    acc

/-- The final per-hex flow accumulation of `generateRivers`. -/
def flowAccumFun (hexes : List Hex) (cols rows : ℕ) : ℕ → ℕ :=
  accumulate (flowNext hexes cols rows) (buildOrder hexes cols rows).2.reverse
    (flowAccumInit hexes)

/-- Step 3 local-maximum test: no in-bounds neighbour has strictly
higher elevation. -/
def isLocalMax (hexes : List Hex) (cols rows : ℕ) (i : ℕ) : Bool :=
  match hexes.get? i with
  | none => false
  | some hex =>
    directions.foldl
      (fun ok d =>
        let nq := hex.q + d.1
        let nr := hex.r + d.2
        if inBounds cols rows nq nr then
          let ni := (hexIndex nq nr cols).toNat
          match hexes.get? ni with
          | some nhex => if hex.elevation < nhex.elevation then false else ok
          | none => ok
        else ok)
      true

/-- Step 3: primary sources are land local maxima with elevation at
least `minSourceElev` and accumulation at least `tributaryAccum`. -/
def primarySources (hexes : List Hex) (cfg : RiverConfig) : List ℕ :=
  (List.range hexes.length).filter fun i =>
    landAt hexes i
      && !(elevAt hexes i < cfg.minSourceElev)
      && isLocalMax hexes cfg.cols cfg.rows i
      && cfg.tributaryAccum ≤ (flowAccumFun hexes cfg.cols cfg.rows i : ℚ)

/-- Step 4 scan shared by the secondary and the tertiary tier: collect
unused land hexes whose accumulation lies in `[lo, hi)`, marking each
selected hex as used. -/
def tierScan (hexes : List Hex) (cols rows : ℕ) (lo hi : ℚ) (used : Finset ℕ) :
    Finset ℕ × List ℕ :=
  (List.range hexes.length).foldl
    (fun (st : Finset ℕ × List ℕ) i =>
      if landAt hexes i && !(decide (i ∈ st.1))
          && lo ≤ (flowAccumFun hexes cols rows i : ℚ)
          && (flowAccumFun hexes cols rows i : ℚ) < hi then
        (insert i st.1, st.2 ++ [i])
      else st)
    (used, [])

/-- Step 5 walk: while the current index is a land hex, push its pixel
center, then stop if the cap `path.length > cols + rows` is hit with a
non-null successor, otherwise follow the flow direction.  One fuel unit
is spent per pushed point; the cap makes `cols + rows + 2` units enough
for every input, so the fuel branch is unreachable. -/
def traceFrom (hexes : List Hex) (σ : ℕ → Option ℕ) (cols rows : ℕ) :
    ℕ → Option ℕ → List Point → List Point
  | 0, _, path => path
  | _ + 1, none, path => path
  | fuel + 1, some i, path =>
    match hexes.get? i with
    | none => path
    | some h =>
      if h.isLand then
        let path1 := path ++ [⟨h.x, h.y⟩]
        match σ i with
        | some n =>
          if cols + rows < path1.length then path1
          else traceFrom hexes σ cols rows fuel (some n) path1
        | none => path1
      else path

/-- The `RiverPolyline` record. -/
structure RiverPolyline where
  path : List Point
  width : ℚ
  order : ℕ
deriving DecidableEq, Repr

/-- The `RiverResult` record. -/
structure RiverResult where
  riverPolylines : List RiverPolyline
  flowDirs : List (Option ℕ)
  flowAccum : List ℕ
deriving Repr

/-- `generateRivers` top level: steps 1–5 assembled. -/
def generateRivers (hexes : List Hex) (cfg : RiverConfig) : RiverResult :=
  let σ := flowNext hexes cfg.cols cfg.rows
  let acc := flowAccumFun hexes cfg.cols cfg.rows
  let primary := primarySources hexes cfg
  let sec := tierScan hexes cfg.cols cfg.rows cfg.secondaryStreamAccum
    cfg.mainRiverAccum primary.toFinset
  let secondary := sec.2
  let tertiary := (tierScan hexes cfg.cols cfg.rows cfg.tertiaryStreamAccum
    cfg.secondaryStreamAccum sec.1).2
  let fuel := cfg.cols + cfg.rows + 2
  let prim := primary.filterMap fun src =>
    let path := traceFrom hexes σ cfg.cols cfg.rows fuel (some src) []
    if 4 < path.length then
      some ⟨chaikinSmoothOpen path cfg.smooth,
        if cfg.mainRiverAccum ≤ (acc src : ℚ) then cfg.riverWidth
        else max 1 (cfg.riverWidth - 1), 1⟩
    else none
  let secd := secondary.filterMap fun src =>
    let path := traceFrom hexes σ cfg.cols cfg.rows fuel (some src) []
    if 3 < path.length then
      some ⟨chaikinSmoothOpen path cfg.smooth, max 1 (cfg.riverWidth - 2), 2⟩
    else none
  let tert := tertiary.filterMap fun src =>
    let path := traceFrom hexes σ cfg.cols cfg.rows fuel (some src) []
    if 2 < path.length then
      some ⟨chaikinSmoothOpen path cfg.smooth, 1, 3⟩
    else none
  { riverPolylines := prim ++ secd ++ tert
    flowDirs := flowDirs hexes cfg.cols cfg.rows
    flowAccum := (List.range hexes.length).map acc }

/-! ### Speck removal (`worldGenerator.ts`)

`generateHexMap` and `generateHexMapSteps` run the same loop: scan the
hexes in index order and reclassify any land hex with fewer than two
land neighbours to water, mutating the array being scanned.  The spec
instead describes a pass evaluated against the frozen pre-pass mask;
`speckRemovalSpec` renders that description for comparison. -/

/-- Land-neighbour count of `hex` against the mask `hs`, with the
boundary-clipped direction table (`if (neighbor && neighbor.isLand)`). -/
def landNeighborCount (cols rows : ℕ) (hs : List Hex) (hex : Hex) : ℕ :=
  directions.foldl
    (fun c d =>
      let nq := hex.q + d.1
      let nr := hex.r + d.2
      if inBounds cols rows nq nr then
        if landAt hs (hexIndex nq nr cols).toNat then c + 1 else c
      else c)
    0

/-- One loop iteration of the source pass: index `i` is examined against
the current, partially updated mask and flipped in place. -/
def speckStep (cols rows : ℕ) (hs : List Hex) (i : ℕ) : List Hex :=
  match hs.get? i with
  | none => hs
  | some hex =>
    if hex.isLand then
      if landNeighborCount cols rows hs hex < 2 then
        hs.set i { hex with isLand := false }
      else hs
    else hs

/-- The speck-removal pass exactly as the source runs it: sequential,
in place, later hexes seeing earlier reclassifications. -/
def speckRemoval (cols rows : ℕ) (hs : List Hex) : List Hex :=
  (List.range hs.length).foldl (speckStep cols rows) hs

/-- The pass as the spec describes it: every land-neighbour count is
evaluated against the frozen pre-pass mask `hs`, and all
reclassifications are applied together afterwards. -/
def speckRemovalSpec (cols rows : ℕ) (hs : List Hex) : List Hex :=
  hs.map fun hex =>
    if hex.isLand && landNeighborCount cols rows hs hex < 2 then
      { hex with isLand := false }
    else hex

/-! ### Region labeling (`labelLandRegions`)

A scan in index order starts, at each unvisited land hex, a flood fill
over the land-adjacency; the fill uses an explicit stack (`queue.pop`),
marks hexes visited when popped, and assigns the current region id. -/

/-- In-bounds neighbour indices of the hex at index `idx`, in direction
order, read from the hex's own `q`/`r` fields. -/
def nbrIndices (hs : List Hex) (cols rows : ℕ) (idx : ℕ) : List ℕ :=
  match hs.get? idx with
  | none => []
  | some h =>
    directions.filterMap fun d =>
      let nq := h.q + d.1
      let nr := h.r + d.2
      if inBounds cols rows nq nr then some (hexIndex nq nr cols).toNat else none

/-- The inner while-loop of `labelLandRegions`.  Pop an index; if it is
already visited, continue; otherwise mark it visited, record the region
id, and push every unvisited land neighbour.  The stack is a list with
its head as the top (`Array.push`/`Array.pop` of the source).  One fuel
unit is spent per pop; call sites pass enough fuel for every pop that
can ever happen, so the fuel branch is unreachable. -/
def floodLoop (hs : List Hex) (cols rows rid : ℕ) :
    ℕ → List ℕ → Finset ℕ → (ℕ → Option ℕ) → Finset ℕ × (ℕ → Option ℕ)
  | 0, _, vis, reg => (vis, reg)
  | _ + 1, [], vis, reg => (vis, reg)
  | fuel + 1, idx :: rest, vis, reg =>
    if idx ∈ vis then floodLoop hs cols rows rid fuel rest vis reg
    else
      let vis1 := insert idx vis
      let reg1 : ℕ → Option ℕ := fun j => if j = idx then some rid else reg j
      let pushes := (nbrIndices hs cols rows idx).filter
        fun n => !(decide (n ∈ vis1)) && landAt hs n
      floodLoop hs cols rows rid fuel (pushes.reverse ++ rest) vis1 reg1

/-- Fuel that always suffices for `floodLoop`: one initial stack entry
plus at most six pushes for each of the at most `hs.length` distinct
indices that can ever be popped unvisited. -/
def floodFuel (hs : List Hex) : ℕ := 6 * hs.length + 2

/-- The outer scan of `labelLandRegions`: region ids start at `1` and
advance once per flood fill. -/
def labelScan (hs : List Hex) (cols rows : ℕ) : Finset ℕ × (ℕ → Option ℕ) :=
  let st := (List.range hs.length).foldl
    (fun (st : ℕ × Finset ℕ × (ℕ → Option ℕ)) i =>
      if landAt hs i && !(decide (i ∈ st.2.1)) then
        let out := floodLoop hs cols rows st.1 (floodFuel hs) [i] st.2.1 st.2.2
        (st.1 + 1, out)
      else st)
    (1, ∅, fun _ => none)
  st.2

/-- `labelLandRegions`: write the computed ids back into the hex list;
a hex never popped keeps its previous `region` field. -/
def labelLandRegions (hs : List Hex) (cols rows : ℕ) : List Hex :=
  let reg := (labelScan hs cols rows).2
  (List.range hs.length).zipWith
    (fun i h =>
      match reg i with
      | some k => { h with region := some k }
      | none => h)
    hs

/-! ### Elevation field (`generateHexMap` / `generateHexMapSteps`)

Both generators compute per-hex elevation identically: a fractal-noise
accumulation over `octaves` layers blended with a radial falloff.  The
embedding is exact over `ℚ` except for three opaque real-valued
ingredients, which become parameters: the supplied `noise` function,
`Math.sqrt` (parameter `sqrtQ`), and the constant `Math.sqrt(3)`
(parameter `s3`).  `Math.pow(base, gradientExponent)` is embedded with
a natural-number exponent. -/

/-- The `HexMapConfig` record.  `gradientExponent` is embedded as a
natural number so that `Math.pow` is ordinary iterated multiplication. -/
structure HexMapConfig where
  radius : ℚ
  cols : ℕ
  rows : ℕ
  octaves : ℕ
  persistence : ℚ
  lacunarity : ℚ
  noiseScale : ℚ
  noiseWeight : ℚ
  shapeWeight : ℚ
  gradientExponent : ℕ
  seaLevel : ℚ

/-- One layer of the octave loop on state
`(amplitude, frequency, noiseSum, maxAmp)`: sample
`noise (x/noiseScale·f) (y/noiseScale·f)`, remap from `[-1,1]` to
`[0,1]`, weight by the current amplitude, then scale amplitude by
`persistence` and frequency by `lacunarity`. -/
def octaveStep (noise : ℚ → ℚ → ℚ) (cfg : HexMapConfig) (x y : ℚ)
    (st : ℚ × ℚ × ℚ × ℚ) (_ : ℕ) : ℚ × ℚ × ℚ × ℚ :=
  let sampleX := x / cfg.noiseScale * st.2.1
  let sampleY := y / cfg.noiseScale * st.2.1
  let n := noise sampleX sampleY * (1/2) + 1/2
  (st.1 * cfg.persistence, st.2.1 * cfg.lacunarity,
   st.2.2.1 + n * st.1, st.2.2.2 + st.1)

/-- The octave loop, folded over `octaves` layers from
`(amplitude, frequency, noiseSum, maxAmp) = (1, 1, 0, 0)`. -/
def octaveState (noise : ℚ → ℚ → ℚ) (cfg : HexMapConfig) (x y : ℚ) : ℚ × ℚ × ℚ × ℚ :=
  (List.range cfg.octaves).foldl (octaveStep noise cfg x y) (1, 1, 0, 0)

/-- `noiseHeight = noiseSum / maxAmp`. -/
def noiseHeight (noise : ℚ → ℚ → ℚ) (cfg : HexMapConfig) (x y : ℚ) : ℚ :=
  let st := octaveState noise cfg x y
  st.2.2.1 / st.2.2.2

/-- Map center x: `cols * radius * Math.sqrt(3) / 2`. -/
def centerX (s3 : ℚ) (cfg : HexMapConfig) : ℚ := cfg.cols * cfg.radius * s3 / 2

/-- Map center y: `rows * radius * 1.5 / 2`. -/
def centerY (cfg : HexMapConfig) : ℚ := cfg.rows * cfg.radius * (3/2) / 2

/-- Radial falloff `(1 - dist/maxDist) ^ gradientExponent` with both
distances taken through the square-root parameter. -/
def gradientAt (sqrtQ : ℚ → ℚ) (s3 : ℚ) (cfg : HexMapConfig) (x y : ℚ) : ℚ :=
  let dx := x - centerX s3 cfg
  let dy := y - centerY cfg
  let dist := sqrtQ (dx * dx + dy * dy)
  let maxDist := sqrtQ (centerX s3 cfg * centerX s3 cfg + centerY cfg * centerY cfg)
  (1 - dist / maxDist) ^ cfg.gradientExponent

/-- The blended, normalized elevation of the hex whose pixel center is
`(x, y)`. -/
def elevationAt (noise : ℚ → ℚ → ℚ) (sqrtQ : ℚ → ℚ) (s3 : ℚ)
    (cfg : HexMapConfig) (x y : ℚ) : ℚ :=
  (noiseHeight noise cfg x y * cfg.noiseWeight
    + gradientAt sqrtQ s3 cfg x y * cfg.shapeWeight)
    / (cfg.noiseWeight + cfg.shapeWeight)

/-- Pixel center x of hex `(q, r)`:
`radius * Math.sqrt(3) * (q + 0.5 * (r & 1))`. -/
def pixelX (s3 : ℚ) (cfg : HexMapConfig) (q r : ℕ) : ℚ :=
  cfg.radius * s3 * ((q : ℚ) + (1/2) * (r % 2 : ℕ))

/-- Pixel center y of hex `(q, r)`: `radius * 1.5 * r`. -/
def pixelY (cfg : HexMapConfig) (r : ℕ) : ℚ := cfg.radius * (3/2) * (r : ℚ)

/-- Step 1 of both generators: the raw hex list in row-major order,
all hexes initially water. -/
def rawHexes (noise : ℚ → ℚ → ℚ) (sqrtQ : ℚ → ℚ) (s3 : ℚ)
    (cfg : HexMapConfig) : List Hex :=
  ((List.range cfg.rows).map fun r =>
    (List.range cfg.cols).map fun q =>
      let x := pixelX s3 cfg q r
      let y := pixelY cfg r
      ({ q := q, r := r, x := x, y := y,
         elevation := elevationAt noise sqrtQ s3 cfg x y,
         isLand := false } : Hex)).flatten

/-- `generateHexMap` classification: `isLand = elevation > seaLevel`
(also the map in step 2 of `generateHexMapSteps`). -/
def classifyHexes (noise : ℚ → ℚ → ℚ) (sqrtQ : ℚ → ℚ) (s3 : ℚ)
    (cfg : HexMapConfig) : List Hex :=
  (rawHexes noise sqrtQ s3 cfg).map fun h =>
    { h with isLand := decide (cfg.seaLevel < h.elevation) }

/-! ### Coastline refinement (`refineCoast`, two variants)

Erosion and dilation are shared verbatim by the two `refineCoast`
implementations: per pass, marks are collected against the frozen mask
of that pass and then applied in one batch.  The noise closure seeded by
`coastNoiseSeed` is opaque and enters as a parameter. -/

/-- The water-neighbour count used by the erosion pass. -/
def waterNeighborsOf (cols rows : ℕ) (hs : List Hex) (hex : Hex) : ℕ :=
  directions.foldl
    (fun c d =>
      let nq := hex.q + d.1
      let nr := hex.r + d.2
      if inBounds cols rows nq nr then
        match hs.get? (hexIndex nq nr cols).toNat with
        | some nhex => if nhex.isLand then c else c + 1
        | none => c
      else c)
    0

/-- The land-neighbour count used by the dilation pass. -/
def landNeighborsOf (cols rows : ℕ) (hs : List Hex) (hex : Hex) : ℕ :=
  directions.foldl
    (fun c d =>
      let nq := hex.q + d.1
      let nr := hex.r + d.2
      if inBounds cols rows nq nr then
        match hs.get? (hexIndex nq nr cols).toNat with
        | some nhex => if nhex.isLand then c + 1 else c
        | none => c
      else c)
    0

/-- Erosion mark for index `i`: a land hex whose water-neighbour count
reaches `2 + n·2`, where `n` is the coast noise sampled at
`(x·0.01, y·0.01)` remapped to `[0,1]`. -/
def erosionMark (noise : ℚ → ℚ → ℚ) (cols rows : ℕ) (hs : List Hex) (i : ℕ) : Bool :=
  match hs.get? i with
  | none => false
  | some hex =>
    hex.isLand &&
      (let n := noise (hex.x * (1/100)) (hex.y * (1/100)) * (1/2) + 1/2
       decide (2 + n * 2 ≤ (waterNeighborsOf cols rows hs hex : ℚ)))

/-- Dilation mark for index `i`: a water hex whose land-neighbour count
reaches `4 - n·2`. -/
def dilationMark (noise : ℚ → ℚ → ℚ) (cols rows : ℕ) (hs : List Hex) (i : ℕ) : Bool :=
  match hs.get? i with
  | none => false
  | some hex =>
    !hex.isLand &&
      (let n := noise (hex.x * (1/100)) (hex.y * (1/100)) * (1/2) + 1/2
       decide (4 - n * 2 ≤ (landNeighborsOf cols rows hs hex : ℚ)))

/-- One erosion pass: all marks are collected against the frozen mask
of the pass, then applied in one batch. -/
def erosionPass (noise : ℚ → ℚ → ℚ) (cols rows : ℕ) (hs : List Hex) : List Hex :=
  ((List.range hs.length).filter (erosionMark noise cols rows hs)).foldl
    (fun l i =>
      match l.get? i with
      | some hex => l.set i { hex with isLand := false }
      | none => l)
    hs

/-- One dilation pass: symmetric to erosion, flipping marked water
hexes to land in one batch. -/
def dilationPass (noise : ℚ → ℚ → ℚ) (cols rows : ℕ) (hs : List Hex) : List Hex :=
  ((List.range hs.length).filter (dilationMark noise cols rows hs)).foldl
    (fun l i =>
      match l.get? i with
      | some hex => l.set i { hex with isLand := true }
      | none => l)
    hs

/-- The refined mask: `erosionPasses` erosion passes followed by
`dilationPasses` dilation passes. -/
def refineMask (noise : ℚ → ℚ → ℚ) (cols rows erosionPasses dilationPasses : ℕ)
    (hs : List Hex) : List Hex :=
  (dilationPass noise cols rows)^[dilationPasses]
    ((erosionPass noise cols rows)^[erosionPasses] hs)

/-- Pixel center of the hex at flat index `ci` (`(0,0)` past the end,
an unreachable case when the list covers the grid). -/
def centerAt (hs : List Hex) (ci : ℕ) : Point :=
  match hs.get? ci with
  | some h => ⟨h.x, h.y⟩
  | none => ⟨0, 0⟩

/-- The boundary walk of `refineCoast`: starting at `(q, r)`, repeatedly
mark the current hex visited, record its center, and move to the first
in-bounds unvisited land neighbour in direction order; stop when none
exists, when the current hex is already visited, or at the source's hard
cap of 1000 steps (the fuel argument, spent one unit per step). -/
def traceWalk (hs : List Hex) (cols rows : ℕ) :
    ℕ → ℤ → ℤ → Finset ℕ → List Point → Finset ℕ × List Point
  | 0, _, _, vis, edge => (vis, edge)
  | fuel + 1, curQ, curR, vis, edge =>
    let ci := (hexIndex curQ curR cols).toNat
    if ci ∈ vis then (vis, edge)
    else
      let vis1 := insert ci vis
      let edge1 := edge ++ [centerAt hs ci]
      let next := directions.foldl
        (fun (found : Option (ℤ × ℤ)) d =>
          match found with
          | some _ => found
          | none =>
            let nnq := curQ + d.1
            let nnr := curR + d.2
            if inBounds cols rows nnq nnr then
              let nni := (hexIndex nnq nnr cols).toNat
              if landAt hs nni && !(decide (nni ∈ vis1)) then some (nnq, nnr)
              else none
            else none)
        none
      match next with
      | some nxt => traceWalk hs cols rows fuel nxt.1 nxt.2 vis1 edge1
      | none => (vis1, edge1)

/-- One cell of the boundary-tracing scan: at a land hex, scan the six
directions; at the first unvisited configuration with a water neighbour,
run the walk and keep a loop of more than two vertices (smoothed by
`smoother`, two Chaikin passes in the sources). -/
def traceCell (smoother : List Point → List Point) (hs : List Hex)
    (cols rows r : ℕ) (st : Finset ℕ × List (List Point)) (q : ℕ) :
    Finset ℕ × List (List Point) :=
  let i := (hexIndex (q : ℤ) (r : ℤ) cols).toNat
  if landAt hs i then
    directions.foldl
      (fun st d =>
        let nq := (q : ℤ) + d.1
        let nr := (r : ℤ) + d.2
        if inBounds cols rows nq nr then
          if !(landAt hs (hexIndex nq nr cols).toNat)
              && !(decide (i ∈ st.1)) then
            let out := traceWalk hs cols rows 1000 q r st.1 []
            if 2 < out.2.length then (out.1, st.2 ++ [smoother out.2])
            else (out.1, st.2)
          else st
        else st)
      st
  else st

/-- The boundary-tracing scan shared by both `refineCoast` variants:
row-major over the grid. -/
def traceLoops (smoother : List Point → List Point) (hs : List Hex)
    (cols rows : ℕ) : List (List Point) :=
  ((List.range rows).foldl
    (fun st r => (List.range cols).foldl (traceCell smoother hs cols rows r) st)
    ((∅, []) : Finset ℕ × List (List Point))).2

/-- The shoelace sum of the unnamed module's `signedArea` (half the
cyclic cross-product sum). -/
def signedArea (pts : List Point) : ℚ :=
  ((List.range pts.length).foldl
    (fun sum i =>
      let p := pts.getD i ⟨0, 0⟩
      let q := pts.getD ((i + 1) % pts.length) ⟨0, 0⟩
      sum + (p.x * q.y - q.x * p.y))
    0) * (1/2)

/-- The final `reduce` of the unnamed module's `refineCoast`: keep the
loop with the largest absolute area, seeded with `coastEdges[0]`; on an
empty list the JavaScript seed is `undefined`, embedded as `none`. -/
def pickLargest (loops : List (List Point)) : Option (List Point) :=
  loops.foldl
    (fun best loop =>
      match best with
      | none => none
      | some b => if |signedArea b| < |signedArea loop| then some loop else some b)
    loops.head?

/-- Result of the unnamed module's `refineCoast`: the returned
`coastEdges` is the one-element array `[outer]`. -/
structure RefineResultA where
  hexes : List Hex
  coastEdges : List (Option (List Point))

/-- Result of `coastline.ts`'s `refineCoast`: all traced loops. -/
structure RefineResultB where
  hexes : List Hex
  coastEdges : List (List Point)

/-- `refineCoast` of the unnamed coastline module: erosion, dilation,
tracing with the closed-variant smoother, then the largest-area loop
alone is returned. -/
def refineCoastKeepLargest (noise : ℚ → ℚ → ℚ) (cols rows erosionPasses dilationPasses : ℕ)
    (hexes : List Hex) : RefineResultA :=
  let hs := refineMask noise cols rows erosionPasses dilationPasses hexes
  let loops := traceLoops (chaikinSmoothClosed · 2) hs cols rows
  { hexes := hs, coastEdges := [pickLargest loops] }

/-- `refineCoast` of `coastline.ts`: erosion, dilation, tracing with the
open-variant smoother; every traced loop is returned. -/
def refineCoastAllLoops (noise : ℚ → ℚ → ℚ) (cols rows erosionPasses dilationPasses : ℕ)
    (hexes : List Hex) : RefineResultB :=
  let hs := refineMask noise cols rows erosionPasses dilationPasses hexes
  { hexes := hs, coastEdges := traceLoops (chaikinSmoothOpen · 2) hs cols rows }

/-! ### Lemmas: Chaikin pass counts -/

/-- Everything of the two hexes but the `isLand` flag coincides. -/
def SameButLand (a b : Hex) : Prop :=
  a.q = b.q ∧ a.r = b.r ∧ a.x = b.x ∧ a.y = b.y
    ∧ a.elevation = b.elevation ∧ a.region = b.region

/-- `out` is `src` with at most the `isLand` flags rewritten. -/
def FramePreserved (src out : List Hex) : Prop :=
  out.length = src.length ∧
    ∀ j h2, out.get? j = some h2 → ∃ h, src.get? j = some h ∧ SameButLand h2 h

/-- The state after the first `k` loop iterations of the source pass. -/
def speckPrefix (cols rows : ℕ) (hs : List Hex) (k : ℕ) : List Hex :=
  (List.range k).foldl (speckStep cols rows) hs

/-- A 2x2 all-land block: every hex survives speck removal. -/
def speckBlock : List Hex :=
  [{ q := 0, r := 0, x := 0, y := 0, elevation := 0, isLand := true },
   { q := 1, r := 0, x := 0, y := 0, elevation := 0, isLand := true },
   { q := 0, r := 1, x := 0, y := 0, elevation := 0, isLand := true },
   { q := 1, r := 1, x := 0, y := 0, elevation := 0, isLand := true }]

/-- A 4x1 strip: three land hexes and a water hex, producing exactly
one traced coastline loop. -/
def coastGrid4 : List Hex :=
  [{ q := 0, r := 0, x := 0, y := 0, elevation := 0, isLand := true },
   { q := 1, r := 0, x := 0, y := 0, elevation := 0, isLand := true },
   { q := 2, r := 0, x := 0, y := 0, elevation := 0, isLand := true },
   { q := 3, r := 0, x := 0, y := 0, elevation := 0, isLand := false }]

/-- A 7x1 strip holding two land runs separated by water: the tracer
produces two loops. -/
def coastGrid7 : List Hex :=
  [{ q := 0, r := 0, x := 0, y := 0, elevation := 0, isLand := true },
   { q := 1, r := 0, x := 0, y := 0, elevation := 0, isLand := true },
   { q := 2, r := 0, x := 0, y := 0, elevation := 0, isLand := true },
   { q := 3, r := 0, x := 0, y := 0, elevation := 0, isLand := false },
   { q := 4, r := 0, x := 0, y := 0, elevation := 0, isLand := true },
   { q := 5, r := 0, x := 0, y := 0, elevation := 0, isLand := true },
   { q := 6, r := 0, x := 0, y := 0, elevation := 0, isLand := true }]

/-- Following the flow field: the position after `k` steps, `none` once
a hex without a flow direction has been left. -/
def iterFlow (σ : ℕ → Option ℕ) : ℕ → ℕ → Option ℕ
  | 0, i => some i
  | k + 1, i => (iterFlow σ k i).bind σ

/-- Every element's flow target occurs strictly before it. -/
def TopoList (σ : ℕ → Option ℕ) (ord : List ℕ) : Prop :=
  ∀ l1 u l2, ord = l1 ++ u :: l2 → ∀ d, σ u = some d → d ∈ l1

/-- The 1x2 grid with a single land hex draining into the sea hex below
it: the land hex's unit of accumulation terminates on a water hex. -/
def riverGrid2 : List Hex :=
  [{ q := 0, r := 0, x := 0, y := 0, elevation := 5, isLand := true },
   { q := 0, r := 1, x := 0, y := 1, elevation := 1, isLand := false }]

/-- A well-formed grid: the list covers `cols * rows` cells in
row-major order and every hex's axial fields agree with its index.
This is exactly what both generators produce. -/
def WFGrid (hs : List Hex) (cols rows : ℕ) : Prop :=
  hs.length = cols * rows ∧ ∀ i, i < hs.length →
    (((hs.get? i).map fun hx =>
        decide (hx.q = ((i % cols : ℕ) : ℤ)) && decide (hx.r = ((i / cols : ℕ) : ℤ))).getD
      false) = true

instance (hs : List Hex) (cols rows : ℕ) : Decidable (WFGrid hs cols rows) := by
  rw [WFGrid]
  infer_instance

/-- One step between adjacent land hexes. -/
def adjStep (hs : List Hex) (cols rows : ℕ) (a b : ℕ) : Prop :=
  landAt hs a = true ∧ landAt hs b = true ∧ b ∈ nbrIndices hs cols rows a

/-- Connectivity through land under the 6-direction adjacency. -/
def Conn (hs : List Hex) (cols rows : ℕ) : ℕ → ℕ → Prop :=
  Relation.ReflTransGen (adjStep hs cols rows)

/-- The region field of the hex stored at index `i`. -/
def regionAt (l : List Hex) (i : ℕ) : Option ℕ :=
  ((l.get? i).map Hex.region).getD none

/-- A concrete 2x1 all-land grid for exercising `claim_C9`. -/
def labelGrid2 : List Hex :=
  [⟨0, 0, 0, 0, 5, true, none⟩, ⟨1, 0, 0, 0, 5, true, none⟩]

/-- Noise stand-in for the C5 counterexample: `-1` below sample height 6,
`1` from there on, always within `[-1,1]`. -/
def cexNoise : ℚ → ℚ → ℚ := fun _ y => if y < 6 then -1 else 1

/-- Square-root stand-in: monotone and nonnegative. -/
def cexSqrt : ℚ → ℚ := fun a => max a 0

/-- C5 counterexample config: nonnegative weights (not both zero) and
`octaves = 2`, exactly as the claim requires, but `persistence = -1/2`. -/
def cexCfg : HexMapConfig :=
  ⟨1, 1, 3, 2, -(1/2), 2, 1, 1, 0, 1, 0⟩

/-- C5 config for the witness: all the amended hypotheses hold. -/
def witCfg : HexMapConfig :=
  ⟨1, 1, 1, 1, 1/2, 2, 1, 1, 1, 2, 1/2⟩

/-- Constant-zero noise for the C5 witness. -/
def witNoise : ℚ → ℚ → ℚ := fun _ _ => 0

/-- A 5x1 all-land strip with strictly descending elevations and
distinct pixel x-coordinates: one primary river source at index 0. -/
def riverGrid5 : List Hex :=
  [⟨0, 0, 0, 0, 9, true, none⟩, ⟨1, 0, 1, 0, 8, true, none⟩,
   ⟨2, 0, 2, 0, 7, true, none⟩, ⟨3, 0, 3, 0, 6, true, none⟩,
   ⟨4, 0, 4, 0, 5, true, none⟩]

/-- River config for the C7 counterexample: one smoothing pass, primary
tier active, the other tiers out of reach. -/
def rCfg5 : RiverConfig := ⟨5, 1, 0, 1000, 1, 100, 100, 2, 1⟩

/-- The raw path traced from source 0 on `riverGrid5`. -/
def rawPath5 : List Point := [⟨0, 0⟩, ⟨1, 0⟩, ⟨2, 0⟩, ⟨3, 0⟩, ⟨4, 0⟩]

lemma length_flatten_two : ∀ l : List (List Point), (∀ a ∈ l, a.length = 2) →
    l.flatten.length = 2 * l.length
  | [], _ => by simp
  | a :: t, h => by
    have ht := length_flatten_two t fun b hb => h b (List.mem_cons_of_mem a hb)
    simp [ht, h a (List.mem_cons_self a t)]
    omega

lemma chaikinClosedPass_length (pts : List Point) :
    (chaikinClosedPass pts).length = 2 * pts.length := by
  rw [chaikinClosedPass]
  rw [length_flatten_two]
  · rw [List.length_map, List.length_range]
  · intro a ha
    rw [List.mem_map] at ha
    obtain ⟨i, _, rfl⟩ := ha
    rfl

lemma chaikinOpenPass_length (pts : List Point) :
    (chaikinOpenPass pts).length = 2 * (pts.length - 1) := by
  rw [chaikinOpenPass]
  rw [length_flatten_two]
  · rw [List.length_map, List.length_range]
  · intro a ha
    rw [List.mem_map] at ha
    obtain ⟨i, _, rfl⟩ := ha
    rfl

lemma chaikinSmoothClosed_succ (pts : List Point) (k : ℕ) :
    chaikinSmoothClosed pts (k + 1) = chaikinClosedPass (chaikinSmoothClosed pts k) :=
  Function.iterate_succ_apply' chaikinClosedPass k pts

lemma chaikinSmoothOpen_succ (pts : List Point) (k : ℕ) :
    chaikinSmoothOpen pts (k + 1) = chaikinOpenPass (chaikinSmoothOpen pts k) :=
  Function.iterate_succ_apply' chaikinOpenPass k pts

lemma chaikinSmoothClosed_length (pts : List Point) (k : ℕ) :
    (chaikinSmoothClosed pts k).length = 2 ^ k * pts.length := by
  induction k with
  | zero => simp [chaikinSmoothClosed]
  | succ n ih =>
    rw [chaikinSmoothClosed_succ, chaikinClosedPass_length, ih]
    ring

lemma chaikinSmoothOpen_length_ge (pts : List Point) (k : ℕ)
    (h : 3 ≤ pts.length) : 3 ≤ (chaikinSmoothOpen pts k).length := by
  induction k with
  | zero => simpa [chaikinSmoothOpen]
  | succ n ih =>
    rw [chaikinSmoothOpen_succ, chaikinOpenPass_length]
    omega

/-- C8, the claim as stated fails: the open variant applied to a
two-point polyline returns two points, so a pass does not strictly
increase the vertex count on every input list. -/
theorem claim_C8_counterexample :
    ¬ (([⟨0, 0⟩, ⟨1, 0⟩] : List Point).length
      < (chaikinSmoothOpen [⟨0, 0⟩, ⟨1, 0⟩] 1).length) := by
  have h : (chaikinSmoothOpen [⟨0, 0⟩, ⟨1, 0⟩] 1).length = 2 := by
    rw [show (1 : ℕ) = 0 + 1 from rfl, chaikinSmoothOpen_succ]
    rw [chaikinOpenPass_length]
    rfl
  rw [h]
  decide

/-- C8 (amended): with 0 passes both variants return the input
unchanged; each pass yields exactly two points per edge (`2·n` points
for the closed variant, `2·(n-1)` for the open one); consequently each
additional pass strictly increases the vertex count for every nonempty
input of the closed variant and for every input with at least three
points of the open variant. -/
theorem claim_C8 :
    (∀ pts : List Point, chaikinSmoothClosed pts 0 = pts ∧ chaikinSmoothOpen pts 0 = pts)
    ∧ (∀ pts : List Point, (chaikinClosedPass pts).length = 2 * pts.length)
    ∧ (∀ pts : List Point, (chaikinOpenPass pts).length = 2 * (pts.length - 1))
    ∧ (∀ (pts : List Point) (k : ℕ), pts ≠ [] →
        (chaikinSmoothClosed pts k).length < (chaikinSmoothClosed pts (k + 1)).length)
    ∧ (∀ (pts : List Point) (k : ℕ), 3 ≤ pts.length →
        (chaikinSmoothOpen pts k).length < (chaikinSmoothOpen pts (k + 1)).length) := by
  refine ⟨fun pts => ⟨rfl, rfl⟩, chaikinClosedPass_length, chaikinOpenPass_length, ?_, ?_⟩
  · intro pts k hne
    rw [chaikinSmoothClosed_length, chaikinSmoothClosed_length]
    have hlen : 0 < pts.length := List.length_pos.mpr hne
    have h2 : (2:ℕ) ^ k < 2 ^ (k + 1) :=
      Nat.pow_lt_pow_right (by norm_num) (Nat.lt_succ_self k)
    exact Nat.mul_lt_mul_of_lt_of_le h2 (le_refl pts.length) hlen
  · intro pts k h3
    have hge := chaikinSmoothOpen_length_ge pts k h3
    rw [chaikinSmoothOpen_succ, chaikinOpenPass_length]
    omega

/-- Witness for C8 at a concrete three-point polyline. -/
theorem claim_C8_witness :
    (chaikinSmoothOpen [⟨0, 0⟩, ⟨1, 0⟩, ⟨2, 0⟩] 0).length
      < (chaikinSmoothOpen [⟨0, 0⟩, ⟨1, 0⟩, ⟨2, 0⟩] 1).length :=
  claim_C8.2.2.2.2 [⟨0, 0⟩, ⟨1, 0⟩, ⟨2, 0⟩] 0 (by decide)

/-! ### Lemmas: the coast refinement touches only `isLand` -/

lemma SameButLand_refl (a : Hex) : SameButLand a a :=
  ⟨Eq.refl _, Eq.refl _, Eq.refl _, Eq.refl _, Eq.refl _, Eq.refl _⟩

lemma SameButLand_trans {a b c : Hex} (h1 : SameButLand a b) (h2 : SameButLand b c) :
    SameButLand a c := by
  obtain ⟨e1, e2, e3, e4, e5, e6⟩ := h1
  obtain ⟨f1, f2, f3, f4, f5, f6⟩ := h2
  exact ⟨e1.trans f1, e2.trans f2, e3.trans f3, e4.trans f4, e5.trans f5, e6.trans f6⟩

lemma FramePreserved_refl (l : List Hex) : FramePreserved l l :=
  ⟨Eq.refl _, fun _ h2 hg => ⟨h2, hg, SameButLand_refl h2⟩⟩

lemma FramePreserved_trans {a b c : List Hex}
    (h1 : FramePreserved a b) (h2 : FramePreserved b c) : FramePreserved a c := by
  refine ⟨h2.1.trans h1.1, fun j hc hg => ?_⟩
  obtain ⟨hb, hgb, sbc⟩ := h2.2 j hc hg
  obtain ⟨ha, hga, sba⟩ := h1.2 j hb hgb
  exact ⟨ha, hga, SameButLand_trans sbc sba⟩

lemma get?_set_cases (l : List Hex) (i j : ℕ) (a : Hex) :
    (l.set i a).get? j = l.get? j ∨
      (j = i ∧ (l.set i a).get? j = some a ∧ ∃ h, l.get? j = some h) := by
  by_cases hij : j = i
  · subst hij
    by_cases hlt : j < l.length
    · refine Or.inr ⟨Eq.refl _, ?_, ?_⟩
      · rw [List.get?_eq_getElem?]
        exact List.getElem?_set_self hlt
      · exact ⟨l.get ⟨j, hlt⟩, List.get?_eq_get hlt⟩
    · left
      rw [List.get?_eq_getElem?, List.get?_eq_getElem?]
      rw [List.getElem?_eq_none (by simpa using Nat.le_of_not_lt hlt)]
      rw [List.getElem?_eq_none (by exact Nat.le_of_not_lt hlt)]
  · left
    rw [List.get?_eq_getElem?, List.get?_eq_getElem?, List.getElem?_set_ne]
    exact fun h => hij h.symm

/-- Setting only the `isLand` flag at indices found in the list keeps
the frame. -/
lemma setLand_fold_frame (b : Bool) :
    ∀ (idxs : List ℕ) (hs : List Hex),
      FramePreserved hs
        (idxs.foldl
          (fun l i =>
            match l.get? i with
            | some hex => l.set i { hex with isLand := b }
            | none => l)
          hs)
  | [], hs => FramePreserved_refl hs
  | i :: t, hs => by
    rw [List.foldl_cons]
    refine FramePreserved_trans (b := (match hs.get? i with
      | some hex => hs.set i { hex with isLand := b }
      | none => hs)) ?_ (setLand_fold_frame b t _)
    match hg : hs.get? i with
    | none => exact FramePreserved_refl hs
    | some hex =>
      refine ⟨List.length_set .., fun j h2 hj => ?_⟩
      rcases get?_set_cases hs i j { hex with isLand := b } with hsame | ⟨rfl, hset, hold⟩
      · exact ⟨h2, by rw [← hsame, hj], SameButLand_refl h2⟩
      · rw [hj] at hset
        obtain ⟨h, hh⟩ := hold
        rw [hh] at hg ⊢
        cases hg
        cases hset
        exact ⟨hex, rfl, ⟨rfl, rfl, rfl, rfl, rfl, rfl⟩⟩

lemma erosionPass_frame (noise : ℚ → ℚ → ℚ) (cols rows : ℕ) (hs : List Hex) :
    FramePreserved hs (erosionPass noise cols rows hs) :=
  setLand_fold_frame false _ hs

lemma dilationPass_frame (noise : ℚ → ℚ → ℚ) (cols rows : ℕ) (hs : List Hex) :
    FramePreserved hs (dilationPass noise cols rows hs) :=
  setLand_fold_frame true _ hs

lemma iterate_frame (f : List Hex → List Hex)
    (hf : ∀ l, FramePreserved l (f l)) :
    ∀ (k : ℕ) (hs : List Hex), FramePreserved hs (f^[k] hs)
  | 0, hs => FramePreserved_refl hs
  | k + 1, hs => by
    rw [Function.iterate_succ_apply]
    exact FramePreserved_trans (hf hs) (iterate_frame f hf k (f hs))

lemma refineMask_frame (noise : ℚ → ℚ → ℚ) (cols rows ep dp : ℕ) (hs : List Hex) :
    FramePreserved hs (refineMask noise cols rows ep dp hs) := by
  rw [refineMask]
  exact FramePreserved_trans
    (iterate_frame _ (erosionPass_frame noise cols rows) ep hs)
    (iterate_frame _ (dilationPass_frame noise cols rows) dp _)

/-- C10: both `refineCoast` implementations only rewrite `isLand`; the
coordinates, elevation and region of every hex survive any number of
erosion and dilation passes, and with zero passes of each kind the hex
list is returned unchanged. -/
theorem claim_C10 (noise : ℚ → ℚ → ℚ) (cols rows ep dp : ℕ) (hexes : List Hex) :
    FramePreserved hexes (refineCoastKeepLargest noise cols rows ep dp hexes).hexes
    ∧ (refineCoastAllLoops noise cols rows ep dp hexes).hexes
        = (refineCoastKeepLargest noise cols rows ep dp hexes).hexes
    ∧ (ep = 0 → dp = 0 →
        (refineCoastKeepLargest noise cols rows ep dp hexes).hexes = hexes) := by
  refine ⟨refineMask_frame noise cols rows ep dp hexes, Eq.refl _, ?_⟩
  rintro rfl rfl
  rfl

/-- Witness for C10 at a one-hex grid with zero passes. -/
theorem claim_C10_witness :
    (refineCoastKeepLargest (fun _ _ => 0) 1 1 0 0
        [{ q := 0, r := 0, x := 0, y := 0, elevation := 0, isLand := true }]).hexes
      = [{ q := 0, r := 0, x := 0, y := 0, elevation := 0, isLand := true }] :=
  (claim_C10 (fun _ _ => 0) 1 1 0 0 _).2.2 (Eq.refl 0) (Eq.refl 0)

/-! ### Lemmas: speck removal -/

/-- Neighbour counts only decrease when the mask loses land. -/
lemma landNeighborCount_mono (cols rows : ℕ) (l1 l2 : List Hex)
    (h : ∀ n, landAt l2 n = true → landAt l1 n = true) (hex : Hex) :
    landNeighborCount cols rows l2 hex ≤ landNeighborCount cols rows l1 hex := by
  rw [landNeighborCount, landNeighborCount]
  have main : ∀ (ds : List (ℤ × ℤ)) (a1 a2 : ℕ), a2 ≤ a1 →
      ds.foldl (fun c d =>
        let nq := hex.q + d.1
        let nr := hex.r + d.2
        if inBounds cols rows nq nr then
          if landAt l2 (hexIndex nq nr cols).toNat then c + 1 else c
        else c) a2
      ≤ ds.foldl (fun c d =>
        let nq := hex.q + d.1
        let nr := hex.r + d.2
        if inBounds cols rows nq nr then
          if landAt l1 (hexIndex nq nr cols).toNat then c + 1 else c
        else c) a1 := by
    intro ds
    induction ds with
    | nil => intro a1 a2 hle; simpa
    | cons d t ih =>
      intro a1 a2 hle
      simp only [List.foldl_cons]
      apply ih
      by_cases hb : inBounds cols rows (hex.q + d.1) (hex.r + d.2)
      · simp only [hb, if_true]
        by_cases h2 : landAt l2 (hexIndex (hex.q + d.1) (hex.r + d.2) cols).toNat
        · rw [if_pos h2, if_pos (h _ h2)]; omega
        · rw [if_neg h2]
          by_cases h1 : landAt l1 (hexIndex (hex.q + d.1) (hex.r + d.2) cols).toNat
          · rw [if_pos h1]; omega
          · rw [if_neg h1]; exact hle
      · simp only [hb]; simpa
  exact main directions 0 0 (le_refl 0)

lemma speckStep_none (cols rows : ℕ) (l : List Hex) (i : ℕ)
    (hg : l.get? i = none) : speckStep cols rows l i = l := by
  rw [speckStep, hg]

lemma speckStep_water (cols rows : ℕ) (l : List Hex) (i : ℕ) (hex : Hex)
    (hg : l.get? i = some hex) (hl : hex.isLand = false) :
    speckStep cols rows l i = l := by
  rw [speckStep, hg]
  simp [hl]

lemma speckStep_removed (cols rows : ℕ) (l : List Hex) (i : ℕ) (hex : Hex)
    (hg : l.get? i = some hex) (hl : hex.isLand = true)
    (hc : landNeighborCount cols rows l hex < 2) :
    speckStep cols rows l i = l.set i { hex with isLand := false } := by
  rw [speckStep, hg]
  simp [hl, hc]

lemma speckStep_kept (cols rows : ℕ) (l : List Hex) (i : ℕ) (hex : Hex)
    (hg : l.get? i = some hex) (hl : hex.isLand = true)
    (hc : ¬ landNeighborCount cols rows l hex < 2) :
    speckStep cols rows l i = l := by
  rw [speckStep, hg]
  simp [hl, hc]

lemma speckStep_length (cols rows : ℕ) (l : List Hex) (i : ℕ) :
    (speckStep cols rows l i).length = l.length := by
  match hg : l.get? i with
  | none => rw [speckStep_none cols rows l i hg]
  | some hex =>
    by_cases hl : hex.isLand
    · by_cases hc : landNeighborCount cols rows l hex < 2
      · rw [speckStep_removed cols rows l i hex hg hl hc, List.length_set]
      · rw [speckStep_kept cols rows l i hex hg hl hc]
    · rw [speckStep_water cols rows l i hex hg (by simpa using hl)]

lemma speckStep_get?_ne (cols rows : ℕ) (l : List Hex) (i j : ℕ) (hne : j ≠ i) :
    (speckStep cols rows l i).get? j = l.get? j := by
  match hg : l.get? i with
  | none => rw [speckStep_none cols rows l i hg]
  | some hex =>
    by_cases hl : hex.isLand
    · by_cases hc : landNeighborCount cols rows l hex < 2
      · rw [speckStep_removed cols rows l i hex hg hl hc]
        rw [List.get?_eq_getElem?, List.get?_eq_getElem?, List.getElem?_set_ne]
        exact fun h => hne h.symm
      · rw [speckStep_kept cols rows l i hex hg hl hc]
    · rw [speckStep_water cols rows l i hex hg (by simpa using hl)]

lemma speckPrefix_succ (cols rows : ℕ) (hs : List Hex) (k : ℕ) :
    speckPrefix cols rows hs (k + 1) = speckStep cols rows (speckPrefix cols rows hs k) k := by
  rw [speckPrefix, speckPrefix, List.range_succ, List.foldl_append, List.foldl_cons,
    List.foldl_nil]

/-- The running invariant of the in-place pass: length is preserved,
unprocessed entries are untouched, every entry is the original or the
original with `isLand` cleared, and every already-processed entry that
is still land had at least two land neighbours in the pre-pass mask. -/
lemma speckPrefix_inv (cols rows : ℕ) (hs : List Hex) :
    ∀ k : ℕ,
      (speckPrefix cols rows hs k).length = hs.length
      ∧ (∀ j, k ≤ j → (speckPrefix cols rows hs k).get? j = hs.get? j)
      ∧ (∀ j h2, (speckPrefix cols rows hs k).get? j = some h2 →
          ∃ h, hs.get? j = some h ∧ (h2 = h ∨ h2 = { h with isLand := false }))
      ∧ (∀ j, j < k → landAt (speckPrefix cols rows hs k) j = true →
          ∃ h, hs.get? j = some h ∧ h.isLand = true
            ∧ 2 ≤ landNeighborCount cols rows hs h)
  | 0 => by
    refine ⟨rfl, fun j _ => rfl, fun j h2 hg => ⟨h2, hg, Or.inl (Eq.refl h2)⟩,
      fun j hj => absurd hj (Nat.not_lt_zero j)⟩
  | k + 1 => by
    obtain ⟨ihlen, ihtail, ihframe, ihkept⟩ := speckPrefix_inv cols rows hs k
    have hmask : ∀ n, landAt (speckPrefix cols rows hs k) n = true → landAt hs n = true := by
      intro n hn
      rw [landAt] at hn ⊢
      match hg : (speckPrefix cols rows hs k).get? n with
      | none => rw [hg] at hn; exact absurd hn (by simp)
      | some h2 =>
        rw [hg] at hn
        obtain ⟨h, hh, hcase⟩ := ihframe n h2 hg
        rw [hh]
        rcases hcase with rfl | rfl
        · exact hn
        · exact absurd hn (by simp)
    rw [speckPrefix_succ]
    set L := speckPrefix cols rows hs k with hL
    refine ⟨(speckStep_length cols rows L k).trans ihlen, ?_, ?_, ?_⟩
    · intro j hj
      rw [speckStep_get?_ne cols rows L k j (by omega)]
      exact ihtail j (by omega)
    · intro j h2 hg
      by_cases hjk : j = k
      · subst hjk
        match hgk : L.get? j with
        | none =>
          rw [speckStep_none cols rows L j hgk] at hg
          rw [hgk] at hg
          cases hg
        | some hex =>
          obtain ⟨h, hh, hcase⟩ := ihframe j hex hgk
          by_cases hl : hex.isLand
          · by_cases hc : landNeighborCount cols rows L hex < 2
            · rw [speckStep_removed cols rows L j hex hgk hl hc] at hg
              rcases get?_set_cases L j j { hex with isLand := false } with hsame | ⟨-, hset, -⟩
              · rw [hsame, hgk] at hg
                cases hg
                exact ⟨h, hh, hcase⟩
              · rw [hg] at hset
                cases hset
                refine ⟨h, hh, Or.inr ?_⟩
                rcases hcase with rfl | rfl
                · rfl
                · rfl
            · rw [speckStep_kept cols rows L j hex hgk hl hc, hgk] at hg
              cases hg
              exact ⟨h, hh, hcase⟩
          · rw [speckStep_water cols rows L j hex hgk (by simpa using hl), hgk] at hg
            cases hg
            exact ⟨h, hh, hcase⟩
      · rw [speckStep_get?_ne cols rows L k j hjk] at hg
        exact ihframe j h2 hg
    · intro j hj hland
      by_cases hjk : j = k
      · subst hjk
        have htailj : L.get? j = hs.get? j := ihtail j (le_refl j)
        rw [landAt] at hland
        match hgk : L.get? j with
        | none =>
          rw [speckStep_none cols rows L j hgk, hgk] at hland
          exact absurd hland (by simp)
        | some hex =>
          by_cases hl : hex.isLand
          · by_cases hc : landNeighborCount cols rows L hex < 2
            · exfalso
              rw [speckStep_removed cols rows L j hex hgk hl hc] at hland
              have hjlt : j < L.length := (List.get?_eq_some.mp hgk).1
              rw [List.get?_eq_getElem?, List.getElem?_set_self hjlt] at hland
              simp at hland
            · refine ⟨hex, by rw [← htailj, hgk], hl, ?_⟩
              have h1 : 2 ≤ landNeighborCount cols rows L hex := by omega
              exact h1.trans (landNeighborCount_mono cols rows hs L hmask hex)
          · exfalso
            rw [speckStep_water cols rows L j hex hgk (by simpa using hl), hgk] at hland
            simp at hland
            exact hl hland
      · rw [landAt, speckStep_get?_ne cols rows L k j hjk] at hland
        exact ihkept j (by omega) (by rw [landAt, hL]; exact hland)

/-- C3, the claim as stated fails: on a 4-long all-land row the
in-place pass clears every hex (each reclassification lowers the count
its right neighbour then sees), while the frozen-mask pass of the spec
keeps the two middle hexes. -/
theorem claim_C3_counterexample :
    (speckRemoval 4 1
        [{ q := 0, r := 0, x := 0, y := 0, elevation := 0, isLand := true },
         { q := 1, r := 0, x := 0, y := 0, elevation := 0, isLand := true },
         { q := 2, r := 0, x := 0, y := 0, elevation := 0, isLand := true },
         { q := 3, r := 0, x := 0, y := 0, elevation := 0, isLand := true }]).map Hex.isLand
      = [false, false, false, false]
    ∧ (speckRemovalSpec 4 1
        [{ q := 0, r := 0, x := 0, y := 0, elevation := 0, isLand := true },
         { q := 1, r := 0, x := 0, y := 0, elevation := 0, isLand := true },
         { q := 2, r := 0, x := 0, y := 0, elevation := 0, isLand := true },
         { q := 3, r := 0, x := 0, y := 0, elevation := 0, isLand := true }]).map Hex.isLand
      = [false, true, true, false] := by
  constructor
  · decide
  · decide

/-- C3 (amended): the source pass is sequential and in place, so a hex
reclassified to water earlier in the pass lowers the counts later hexes
see, and the pass is not equivalent to the frozen-mask pass described by
the spec; what remains true is the weaker half of the claim: every land
hex surviving the pass had at least two land neighbours in the pre-pass
mask. -/
theorem claim_C3 (cols rows : ℕ) (hs : List Hex) (i : ℕ) (h2 : Hex)
    (hget : (speckRemoval cols rows hs).get? i = some h2)
    (hland : h2.isLand = true) :
    ∃ h, hs.get? i = some h ∧ h.isLand = true
      ∧ 2 ≤ landNeighborCount cols rows hs h := by
  obtain ⟨hlen, -, -, hkept⟩ := speckPrefix_inv cols rows hs hs.length
  have hdef : speckRemoval cols rows hs = speckPrefix cols rows hs hs.length := Eq.refl _
  rw [hdef] at hget
  have hi : i < hs.length := by
    have h3 := (List.get?_eq_some.mp hget).1
    omega
  refine hkept i hi ?_
  rw [landAt, hget]
  simpa using hland

/-- Witness for C3: on the 2x2 all-land block the first hex survives,
and it indeed had two land neighbours in the pre-pass mask. -/
theorem claim_C3_witness :
    ∃ h, speckBlock.get? 0 = some h ∧ h.isLand = true
      ∧ 2 ≤ landNeighborCount 2 2 speckBlock h :=
  claim_C3 2 2 speckBlock 0
    { q := 0, r := 0, x := 0, y := 0, elevation := 0, isLand := true }
    (by decide) (by decide)

/-! ### Lemmas: behaviour on an all-water map -/

lemma foldl_id {α β : Type} (f : α → β → α) (l : List β) (st : α)
    (h : ∀ st a, a ∈ l → f st a = st) : l.foldl f st = st := by
  induction l generalizing st with
  | nil => rfl
  | cons a t ih =>
    rw [List.foldl_cons, h st a (List.mem_cons_self a t)]
    exact ih st fun st b hb => h st b (List.mem_cons_of_mem a hb)

lemma landAt_false_of_allWater (hs : List Hex) (hw : ∀ h ∈ hs, h.isLand = false)
    (n : ℕ) : landAt hs n = false := by
  rw [landAt]
  match hg : hs.get? n with
  | none => rfl
  | some h => simpa using hw h (List.get?_mem hg)

lemma erosionPass_allWater (noise : ℚ → ℚ → ℚ) (cols rows : ℕ) (hs : List Hex)
    (hw : ∀ h ∈ hs, h.isLand = false) : erosionPass noise cols rows hs = hs := by
  rw [erosionPass]
  have hfilter : ∀ i ∈ List.range hs.length,
      ¬ erosionMark noise cols rows hs i = true := by
    intro i _
    rw [erosionMark]
    match hg : hs.get? i with
    | none => simp
    | some hex => simp [hw hex (List.get?_mem hg)]
  rw [List.filter_eq_nil_iff.mpr hfilter]
  rfl

lemma landNeighborsOf_allWater (cols rows : ℕ) (hs : List Hex)
    (hw : ∀ h ∈ hs, h.isLand = false) (hex : Hex) :
    landNeighborsOf cols rows hs hex = 0 := by
  rw [landNeighborsOf]
  have main : ∀ (ds : List (ℤ × ℤ)) (a : ℕ), ds.foldl
      (fun c d =>
        let nq := hex.q + d.1
        let nr := hex.r + d.2
        if inBounds cols rows nq nr then
          match hs.get? (hexIndex nq nr cols).toNat with
          | some nhex => if nhex.isLand then c + 1 else c
          | none => c
        else c) a = a := by
    intro ds
    induction ds with
    | nil => intro a; rfl
    | cons d t ih =>
      intro a
      rw [List.foldl_cons]
      have hstep : (if inBounds cols rows (hex.q + d.1) (hex.r + d.2) then
          match hs.get? (hexIndex (hex.q + d.1) (hex.r + d.2) cols).toNat with
          | some nhex => if nhex.isLand then a + 1 else a
          | none => a
        else a) = a := by
        by_cases hb : inBounds cols rows (hex.q + d.1) (hex.r + d.2)
        · rw [if_pos hb]
          match hg : hs.get? (hexIndex (hex.q + d.1) (hex.r + d.2) cols).toNat with
          | none => rfl
          | some nhex =>
            have := hw nhex (List.get?_mem hg)
            simp [this]
        · rw [if_neg hb]
      rw [hstep]
      exact ih a
  exact main directions 0

lemma dilationPass_allWater (noise : ℚ → ℚ → ℚ) (cols rows : ℕ) (hs : List Hex)
    (hw : ∀ h ∈ hs, h.isLand = false)
    (hn : ∀ a b, -1 ≤ noise a b ∧ noise a b ≤ 1) :
    dilationPass noise cols rows hs = hs := by
  rw [dilationPass]
  have hfilter : ∀ i ∈ List.range hs.length,
      ¬ dilationMark noise cols rows hs i = true := by
    intro i _
    rw [dilationMark]
    match hg : hs.get? i with
    | none => simp
    | some hex =>
      obtain ⟨h1, h2⟩ := hn (hex.x * (1/100)) (hex.y * (1/100))
      simp [hw hex (List.get?_mem hg), landNeighborsOf_allWater cols rows hs hw hex]
      nlinarith
  rw [List.filter_eq_nil_iff.mpr hfilter]
  rfl

lemma refineMask_allWater (noise : ℚ → ℚ → ℚ) (cols rows ep dp : ℕ) (hs : List Hex)
    (hw : ∀ h ∈ hs, h.isLand = false)
    (hn : ∀ a b, -1 ≤ noise a b ∧ noise a b ≤ 1) :
    refineMask noise cols rows ep dp hs = hs := by
  rw [refineMask]
  rw [Function.iterate_fixed (erosionPass_allWater noise cols rows hs hw) ep]
  rw [Function.iterate_fixed (dilationPass_allWater noise cols rows hs hw hn) dp]

lemma traceCell_notLand (smoother : List Point → List Point) (hs : List Hex)
    (cols rows r q : ℕ) (st : Finset ℕ × List (List Point))
    (h : landAt hs (hexIndex (q : ℤ) (r : ℤ) cols).toNat = false) :
    traceCell smoother hs cols rows r st q = st := by
  rw [traceCell, h]
  rfl

lemma traceLoops_allWater (smoother : List Point → List Point) (hs : List Hex)
    (cols rows : ℕ) (hw : ∀ h ∈ hs, h.isLand = false) :
    traceLoops smoother hs cols rows = [] := by
  rw [traceLoops]
  have houter : (List.range rows).foldl
      (fun st r => (List.range cols).foldl (traceCell smoother hs cols rows r) st)
      (∅, []) = ((∅, []) : Finset ℕ × List (List Point)) := by
    apply foldl_id
    intro st r _
    apply foldl_id
    intro st q _
    exact traceCell_notLand smoother hs cols rows r q st
      (landAt_false_of_allWater hs hw _)
  rw [houter]

/-- C6 (amended): with zero land hexes, `coastline.ts`'s `refineCoast`
returns the empty loop list and `generateRivers` selects no sources and
returns no polylines, as the claim states; the unnamed module's
`refineCoast`, however, returns a one-element `coastEdges` array whose
sole entry is the JavaScript `undefined` produced by reducing an empty
loop list, not an empty list. -/
theorem claim_C6 (noise : ℚ → ℚ → ℚ) (cols rows ep dp : ℕ) (hexes : List Hex)
    (cfg : RiverConfig) (hwater : ∀ h ∈ hexes, h.isLand = false)
    (hnoise : ∀ a b, -1 ≤ noise a b ∧ noise a b ≤ 1) :
    (refineCoastAllLoops noise cols rows ep dp hexes).coastEdges = []
    ∧ (generateRivers hexes cfg).riverPolylines = []
    ∧ (refineCoastKeepLargest noise cols rows ep dp hexes).coastEdges = [none] := by
  have hmask := refineMask_allWater noise cols rows ep dp hexes hwater hnoise
  refine ⟨?_, ?_, ?_⟩
  · show traceLoops _ (refineMask noise cols rows ep dp hexes) cols rows = []
    rw [hmask]
    exact traceLoops_allWater _ hexes cols rows hwater
  · show (primarySources hexes cfg).filterMap _
      ++ ((tierScan hexes cfg.cols cfg.rows cfg.secondaryStreamAccum
            cfg.mainRiverAccum (primarySources hexes cfg).toFinset).2.filterMap _)
      ++ _ = []
    have hprim : primarySources hexes cfg = [] := by
      rw [primarySources]
      apply List.filter_eq_nil_iff.mpr
      intro i _
      rw [landAt_false_of_allWater hexes hwater]
      simp
    have htier : ∀ lo hi used, (tierScan hexes cfg.cols cfg.rows lo hi used).2 = [] := by
      intro lo hi used
      rw [tierScan]
      have : (List.range hexes.length).foldl
          (fun (st : Finset ℕ × List ℕ) i =>
            if landAt hexes i && !(decide (i ∈ st.1))
                && lo ≤ (flowAccumFun hexes cfg.cols cfg.rows i : ℚ)
                && (flowAccumFun hexes cfg.cols cfg.rows i : ℚ) < hi then
              (insert i st.1, st.2 ++ [i])
            else st)
          (used, []) = (used, []) := by
        apply foldl_id
        intro st i _
        rw [landAt_false_of_allWater hexes hwater]
        rfl
      rw [this]
    rw [hprim, htier, htier]
    rfl
  · show [pickLargest (traceLoops _ (refineMask noise cols rows ep dp hexes) cols rows)]
      = [none]
    rw [hmask, traceLoops_allWater _ hexes cols rows hwater]
    rfl

/-- C6, the claim as stated fails for the unnamed module's
`refineCoast`: on a one-hex all-water grid its returned `coastEdges` is
the one-element array holding `undefined`, not the empty list. -/
theorem claim_C6_counterexample :
    (refineCoastKeepLargest (fun _ _ => 0) 1 1 1 1
        [{ q := 0, r := 0, x := 0, y := 0, elevation := 0, isLand := false }]).coastEdges
      ≠ [] := by
  intro h
  exact List.cons_ne_nil _ _ h

/-- Witness for C6 on a one-hex all-water grid with the zero noise
function. -/
theorem claim_C6_witness :
    (refineCoastAllLoops (fun _ _ => 0) 1 1 1 1
        [{ q := 0, r := 0, x := 0, y := 0, elevation := 0, isLand := false }]).coastEdges = []
    ∧ (generateRivers
        [{ q := 0, r := 0, x := 0, y := 0, elevation := 0, isLand := false }]
        { cols := 1, rows := 1 }).riverPolylines = []
    ∧ (refineCoastKeepLargest (fun _ _ => 0) 1 1 1 1
        [{ q := 0, r := 0, x := 0, y := 0, elevation := 0, isLand := false }]).coastEdges
      = [none] :=
  claim_C6 (fun _ _ => 0) 1 1 1 1 _ { cols := 1, rows := 1 }
    (by decide) (fun a b => by norm_num)

/-! ### Lemmas: largest-loop selection -/

lemma pickLargest_fold (xs : List (List Point)) : ∀ b : List Point,
    ∃ best, xs.foldl
      (fun best loop =>
        match best with
        | none => none
        | some bb => if |signedArea bb| < |signedArea loop| then some loop else some bb)
      (some b) = some best
    ∧ (best = b ∨ best ∈ xs)
    ∧ |signedArea b| ≤ |signedArea best|
    ∧ ∀ l ∈ xs, |signedArea l| ≤ |signedArea best| := by
  induction xs with
  | nil =>
    intro b
    exact ⟨b, rfl, Or.inl (Eq.refl b), le_refl _, fun l hl => absurd hl (List.not_mem_nil l)⟩
  | cons y ys ih =>
    intro b
    rw [List.foldl_cons]
    by_cases hlt : |signedArea b| < |signedArea y|
    · simp only [hlt, if_true]
      obtain ⟨best, heq, hmem, hle, hall⟩ := ih y
      refine ⟨best, heq, ?_, hlt.le.trans hle, ?_⟩
      · rcases hmem with rfl | hm
        · exact Or.inr (List.mem_cons_self _ _)
        · exact Or.inr (List.mem_cons_of_mem _ hm)
      · intro l hl
        rcases List.mem_cons.mp hl with rfl | hm
        · exact hle
        · exact hall l hm
    · simp only [hlt, if_false]
      obtain ⟨best, heq, hmem, hle, hall⟩ := ih b
      refine ⟨best, heq, ?_, hle, ?_⟩
      · rcases hmem with rfl | hm
        · exact Or.inl (Eq.refl best)
        · exact Or.inr (List.mem_cons_of_mem _ hm)
      · intro l hl
        rcases List.mem_cons.mp hl with rfl | hm
        · exact (le_of_not_lt hlt).trans hle
        · exact hall l hm

lemma pickLargest_spec (loops : List (List Point)) (hne : loops ≠ []) :
    ∃ best, pickLargest loops = some best ∧ best ∈ loops
      ∧ ∀ l ∈ loops, |signedArea l| ≤ |signedArea best| := by
  match loops, hne with
  | x :: xs, _ =>
    rw [pickLargest]
    rw [List.head?_cons, List.foldl_cons]
    have hself : ¬ |signedArea x| < |signedArea x| := lt_irrefl _
    simp only [hself, if_false]
    obtain ⟨best, heq, hmem, hle, hall⟩ := pickLargest_fold xs x
    refine ⟨best, heq, ?_, ?_⟩
    · rcases hmem with rfl | hm
      · exact List.mem_cons_self _ _
      · exact List.mem_cons_of_mem _ hm
    · intro l hl
      rcases List.mem_cons.mp hl with rfl | hm
      · exact hle
      · exact hall l hm

/-- C4 (amended): the unnamed module's `refineCoast` does return a
single entry holding a traced loop of maximal absolute shoelace area
whenever at least one loop is traced; `coastline.ts`'s `refineCoast`,
cited by the same spec section, performs no such selection and returns
every traced loop. -/
theorem claim_C4 (noise : ℚ → ℚ → ℚ) (cols rows ep dp : ℕ) (hexes : List Hex)
    (hne : traceLoops (chaikinSmoothClosed · 2)
      (refineMask noise cols rows ep dp hexes) cols rows ≠ []) :
    ∃ best, (refineCoastKeepLargest noise cols rows ep dp hexes).coastEdges = [some best]
      ∧ best ∈ traceLoops (chaikinSmoothClosed · 2)
          (refineMask noise cols rows ep dp hexes) cols rows
      ∧ ∀ l ∈ traceLoops (chaikinSmoothClosed · 2)
          (refineMask noise cols rows ep dp hexes) cols rows,
          |signedArea l| ≤ |signedArea best| := by
  obtain ⟨best, heq, hmem, hall⟩ := pickLargest_spec _ hne
  exact ⟨best, by rw [refineCoastKeepLargest]; rw [heq], hmem, hall⟩

/-- Witness for C4 on the 4x1 strip with zero erosion and dilation. -/
theorem claim_C4_witness :
    ∃ best, (refineCoastKeepLargest (fun _ _ => 0) 4 1 0 0 coastGrid4).coastEdges
        = [some best]
      ∧ best ∈ traceLoops (chaikinSmoothClosed · 2)
          (refineMask (fun _ _ => 0) 4 1 0 0 coastGrid4) 4 1
      ∧ ∀ l ∈ traceLoops (chaikinSmoothClosed · 2)
          (refineMask (fun _ _ => 0) 4 1 0 0 coastGrid4) 4 1,
          |signedArea l| ≤ |signedArea best| :=
  claim_C4 (fun _ _ => 0) 4 1 0 0 coastGrid4 (by decide)

/-- C4, the claim as stated fails for `coastline.ts`'s `refineCoast`
(one of the two implementations the spec describes as CoastRefiner): on
the 7x1 two-island strip it returns both traced loops, not a sole
largest one. -/
theorem claim_C4_counterexample :
    (refineCoastAllLoops (fun _ _ => 0) 7 1 0 0 coastGrid7).coastEdges.length ≠ 1 := by
  decide

/-! ### Lemmas: flow directions strictly descend and terminate -/

/-- The fold invariant of step 1: the running minimum never exceeds the
hex's own elevation, and any recorded index points at an in-grid hex of
strictly smaller elevation attaining the running minimum. -/
lemma flowFold_inv (hexes : List Hex) (cols rows : ℕ) (hex : Hex) :
    ∀ (ds : List (ℤ × ℤ)) (st : ℚ × Option ℕ),
      (st.1 ≤ hex.elevation
        ∧ (∀ j, st.2 = some j → j < cols * rows ∧ st.1 < hex.elevation
            ∧ ∃ hj, hexes.get? j = some hj ∧ hj.elevation = st.1)) →
      ((ds.foldl (flowStep hexes cols rows hex) st).1 ≤ hex.elevation
        ∧ (∀ j, (ds.foldl (flowStep hexes cols rows hex) st).2 = some j →
            j < cols * rows
            ∧ (ds.foldl (flowStep hexes cols rows hex) st).1 < hex.elevation
            ∧ ∃ hj, hexes.get? j = some hj
                ∧ hj.elevation = (ds.foldl (flowStep hexes cols rows hex) st).1)) := by
  intro ds
  induction ds with
  | nil => intro st hst; exact hst
  | cons d t ih =>
    intro st hst
    rw [List.foldl_cons]
    apply ih
    rw [flowStep]
    by_cases hb : inBounds cols rows (hex.q + d.1) (hex.r + d.2)
    · simp only [hb, if_true]
      match hg : hexes.get? (hexIndex (hex.q + d.1) (hex.r + d.2) cols).toNat with
      | none => exact hst
      | some nhex =>
        by_cases hless : nhex.elevation < st.1
        · simp only [hless, if_true]
          refine ⟨hless.le.trans hst.1, fun j hj => ?_⟩
          cases hj
          refine ⟨?_, lt_of_lt_of_le hless hst.1, nhex, hg, rfl⟩
          rw [inBounds] at hb
          simp only [Bool.and_eq_true, decide_eq_true_eq] at hb
          obtain ⟨⟨⟨hq0, hqc⟩, hr0⟩, hrr⟩ := hb
          rw [hexIndex]
          have h1 : (hex.r + d.2) * (cols : ℤ) + (hex.q + d.1)
              < (rows : ℤ) * (cols : ℤ) := by nlinarith
          have h2 : (0 : ℤ) ≤ (hex.r + d.2) * (cols : ℤ) + (hex.q + d.1) := by positivity
          have h3 : (rows : ℤ) * (cols : ℤ) = ((rows * cols : ℕ) : ℤ) := by push_cast; ring
          have h4 : rows * cols = cols * rows := Nat.mul_comm rows cols
          omega
        · simp only [hless, if_false]
          exact hst
    · simp only [hb, if_false]
      exact hst

/-- What step 1 guarantees when it records a flow direction. -/
lemma flowDirOf_spec (hexes : List Hex) (cols rows : ℕ) (i j : ℕ)
    (h : flowDirOf hexes cols rows i = some j) :
    j < cols * rows ∧ landAt hexes i = true
      ∧ elevAt hexes j < elevAt hexes i := by
  rw [flowDirOf] at h
  match hg : hexes.get? i with
  | none => rw [hg] at h; cases h
  | some hex =>
    rw [hg] at h
    by_cases hl : hex.isLand
    · simp only [hl, if_true] at h
      have hinv := flowFold_inv hexes cols rows hex directions (hex.elevation, none)
        ⟨le_refl _, fun j hj => by cases hj⟩
      obtain ⟨hjlt, hlt, hj, hgj, hej⟩ := hinv.2 j h
      refine ⟨hjlt, by rw [landAt, hg]; simpa using hl, ?_⟩
      rw [elevAt, elevAt, hg, hgj]
      simpa [hej] using hlt
    · simp only [hl, if_false] at h
      cases h

lemma flowNext_spec (hexes : List Hex) (cols rows : ℕ) (i j : ℕ)
    (h : flowNext hexes cols rows i = some j) :
    i < hexes.length ∧ j < cols * rows ∧ landAt hexes i = true
      ∧ elevAt hexes j < elevAt hexes i := by
  rw [flowNext] at h
  by_cases hi : i < hexes.length
  · rw [if_pos hi] at h
    obtain ⟨h1, h2, h3⟩ := flowDirOf_spec hexes cols rows i j h
    exact ⟨hi, h1, h2, h3⟩
  · rw [if_neg hi] at h
    cases h

/-- Elevation strictly decreases along any positive number of steps. -/
lemma iterFlow_strict (hexes : List Hex) (cols rows : ℕ) :
    ∀ (k : ℕ) (i j : ℕ), 0 < k →
      iterFlow (flowNext hexes cols rows) k i = some j →
      elevAt hexes j < elevAt hexes i
  | 0, i, j, hk, _ => absurd hk (lt_irrefl 0)
  | k + 1, i, j, _, h => by
    rw [iterFlow] at h
    match hm : iterFlow (flowNext hexes cols rows) k i with
    | none => rw [hm] at h; cases h
    | some m =>
      rw [hm] at h
      have hstep := (flowNext_spec hexes cols rows m j h).2.2.2
      match k, hm with
      | 0, hm =>
        rw [iterFlow] at hm
        cases hm
        exact hstep
      | k + 1, hm =>
        exact hstep.trans (iterFlow_strict hexes cols rows (k + 1) i m (Nat.succ_pos k) hm)

/-- Splitting an iterated flow walk. -/
lemma iterFlow_add (σ : ℕ → Option ℕ) (s : ℕ) :
    ∀ (d i : ℕ), iterFlow σ (s + d) i = (iterFlow σ s i).bind (iterFlow σ d)
  | 0, i => by
    rw [Nat.add_zero]
    match iterFlow σ s i with
    | none => rfl
    | some m => rfl
  | d + 1, i => by
    rw [show s + (d + 1) = (s + d) + 1 from rfl, iterFlow, iterFlow_add σ s d i]
    match iterFlow σ s i with
    | none => rfl
    | some m => rw [Option.some_bind, Option.some_bind, iterFlow]

/-- Counting land by list filtering agrees with counting land indices. -/
lemma card_landFinset (hs : List Hex) :
    ((Finset.range hs.length).filter (fun n => landAt hs n = true)).card
      = (hs.filter Hex.isLand).length := by
  induction hs using List.reverseRecOn with
  | nil => rfl
  | append_singleton t a ih =>
    rw [List.length_append, List.length_singleton, List.filter_append,
      List.length_append]
    rw [Finset.range_succ, Finset.filter_insert]
    have hcong : (Finset.range t.length).filter (fun n => landAt (t ++ [a]) n = true)
        = (Finset.range t.length).filter (fun n => landAt t n = true) := by
      apply Finset.filter_congr
      intro n hn
      rw [Finset.mem_range] at hn
      rw [landAt, landAt, List.get?_append hn]
    have hlast : landAt (t ++ [a]) t.length = a.isLand := by
      rw [landAt, List.get?_append_right (le_refl _)]
      simp
    by_cases hA : a.isLand
    · rw [if_pos (by rw [hlast]; exact hA)]
      rw [Finset.card_insert_of_not_mem (by simp)]
      rw [hcong, ih]
      simp [hA]
    · rw [if_neg (by rw [hlast]; simpa using hA)]
      rw [hcong, ih]
      simp [hA]

/-- C2: every recorded flow direction strictly descends in elevation;
hence the flow graph has no cycles, and from any land hex the flow
reaches a hex without direction within `N` steps, `N` the land count. -/
theorem claim_C2 (hexes : List Hex) (cols rows : ℕ)
    (hlen : hexes.length = cols * rows) :
    (∀ i j, flowNext hexes cols rows i = some j →
        elevAt hexes j < elevAt hexes i ∧ landAt hexes i = true ∧ j < hexes.length)
    ∧ (∀ k i j, 0 < k → iterFlow (flowNext hexes cols rows) k i = some j → j ≠ i)
    ∧ (∀ i, landAt hexes i = true →
        ∃ k ≤ (hexes.filter Hex.isLand).length, ∃ j,
          iterFlow (flowNext hexes cols rows) k i = some j
          ∧ flowNext hexes cols rows j = none) := by
  set σ := flowNext hexes cols rows with hσ
  set LC := (hexes.filter Hex.isLand).length with hLC
  refine ⟨?_, ?_, ?_⟩
  · intro i j h
    obtain ⟨-, h1, h2, h3⟩ := flowNext_spec hexes cols rows i j h
    exact ⟨h3, h2, by omega⟩
  · intro k i j hk h
    intro hji
    subst hji
    exact lt_irrefl _ (iterFlow_strict hexes cols rows k j j hk h)
  · intro i hland
    by_contra hcon
    push_neg at hcon
    have hchain : ∀ k, k ≤ LC → ∃ jk, iterFlow σ k i = some jk ∧ σ jk ≠ none := by
      intro k
      induction k with
      | zero =>
        intro _
        refine ⟨i, by rw [iterFlow], fun hnone => ?_⟩
        exact hcon 0 (Nat.zero_le LC) i (by rw [iterFlow]) hnone
      | succ k ih =>
        intro hk
        obtain ⟨jk, hiter, hne⟩ := ih (by omega)
        match hs : σ jk with
        | none => exact absurd hs hne
        | some j2 =>
          have hiter2 : iterFlow σ (k + 1) i = some j2 := by
            rw [iterFlow, hiter]
            exact hs
          exact ⟨j2, hiter2, fun hnone => hcon (k + 1) hk j2 hiter2 hnone⟩
    have hJ : ∀ k, k ≤ LC → ∃ jk, iterFlow σ k i = some jk
        ∧ jk ∈ (Finset.range hexes.length).filter (fun n => landAt hexes n = true) := by
      intro k hk
      obtain ⟨jk, hiter, hne⟩ := hchain k hk
      match hs : σ jk with
      | none => exact absurd hs hne
      | some j2 =>
        obtain ⟨hjk, -, hjland, -⟩ := flowNext_spec hexes cols rows jk j2 hs
        exact ⟨jk, hiter, Finset.mem_filter.mpr ⟨Finset.mem_range.mpr hjk, hjland⟩⟩
    have hinj : ∀ s t, s < t → t ≤ LC → iterFlow σ s i ≠ iterFlow σ t i := by
      intro s t hst htle heq
      obtain ⟨js, hs2, -⟩ := hJ s (by omega)
      have ht : t = s + (t - s) := by omega
      have hsplit : iterFlow σ t i = iterFlow σ (t - s) js := by
        conv_lhs => rw [ht]
        rw [iterFlow_add σ s (t - s) i, hs2, Option.some_bind]
      rw [← heq, hs2] at hsplit
      have hdec := iterFlow_strict hexes cols rows (t - s) js js (by omega) hsplit.symm
      exact lt_irrefl _ hdec
    have hmaps : ∀ k ∈ Finset.range (LC + 1),
        (iterFlow σ k i).getD 0
          ∈ (Finset.range hexes.length).filter (fun n => landAt hexes n = true) := by
      intro k hk
      rw [Finset.mem_range] at hk
      obtain ⟨jk, hiter, hmem⟩ := hJ k (by omega)
      rw [hiter]
      exact hmem
    have hinjOn : Set.InjOn (fun k => (iterFlow σ k i).getD 0)
        ↑(Finset.range (LC + 1)) := by
      intro s hsm t htm hst
      by_contra hne
      have hst2 : (iterFlow σ s i).getD 0 = (iterFlow σ t i).getD 0 := hst
      rcases Nat.lt_or_ge s t with hlt | hge
      · obtain ⟨js, hs2, -⟩ := hJ s (by
          simp only [Finset.coe_range, Set.mem_Iio] at hsm
          omega)
        obtain ⟨jt, ht2, -⟩ := hJ t (by
          simp only [Finset.coe_range, Set.mem_Iio] at htm
          omega)
        apply hinj s t hlt (by
          simp only [Finset.coe_range, Set.mem_Iio] at htm
          omega)
        rw [hs2, ht2]
        rw [hs2, ht2] at hst2
        simp only [Option.getD_some] at hst2
        rw [hst2]
      · have hlt : t < s := by omega
        obtain ⟨js, hs2, -⟩ := hJ s (by
          simp only [Finset.coe_range, Set.mem_Iio] at hsm
          omega)
        obtain ⟨jt, ht2, -⟩ := hJ t (by
          simp only [Finset.coe_range, Set.mem_Iio] at htm
          omega)
        apply hinj t s hlt (by
          simp only [Finset.coe_range, Set.mem_Iio] at hsm
          omega)
        rw [hs2, ht2]
        rw [hs2, ht2] at hst2
        simp only [Option.getD_some] at hst2
        rw [hst2]
    have hcard := Finset.card_le_card_of_injOn _ hmaps hinjOn
    rw [Finset.card_range, card_landFinset] at hcard
    omega

/-! ### Lemmas: the depth-first postorder is topological

For the accumulation sweep to conserve flow, every hex must appear in
the postorder list after its downstream target.  `TopoList` captures
this: wherever the list is split at an element, its flow target already
occurs to the left. -/

lemma TopoList.nil (σ : ℕ → Option ℕ) : TopoList σ [] := by
  intro l1 u l2 heq
  exact absurd (congrArg List.length heq) (by simp; omega)

lemma TopoList.append_last (σ : ℕ → Option ℕ) (ord : List ℕ) (x : ℕ)
    (h : TopoList σ ord) (hx : ∀ d, σ x = some d → d ∈ ord) :
    TopoList σ (ord ++ [x]) := by
  intro l1 u l2 heq d hd
  rcases List.eq_nil_or_concat l2 with rfl | ⟨l2p, y, rfl⟩
  · have h2 : ord.concat x = l1.concat u := by
      rw [List.concat_eq_append, List.concat_eq_append]
      exact heq
    obtain ⟨rfl, rfl⟩ := List.concat_inj.mp h2
    exact hx d hd
  · have h2 : ord.concat x = (l1 ++ u :: l2p).concat y := by
      rw [List.concat_eq_append, List.concat_eq_append]
      rw [heq]
      simp
    obtain ⟨hord, rfl⟩ := List.concat_inj.mp h2
    exact h l1 u l2p hord d hd

/-- The master specification of the fuelled depth-first visit.  With
enough fuel, in-range start, acyclic targets (through `rank`), and a
state whose in-progress hexes (visited but not yet ordered) all rank
above the start, the visit preserves the order invariants, appends only
hexes ranking at most the start, and ends with the start both visited
and ordered. -/
lemma visitDFS_spec (σ : ℕ → Option ℕ) (B : ℕ) (rank : ℕ → ℚ)
    (hσB : ∀ u d, σ u = some d → d < B)
    (hσr : ∀ u d, σ u = some d → rank d < rank u) :
    ∀ (fuel : ℕ) (idx : ℕ) (st : Finset ℕ × List ℕ),
      (Finset.range B \ st.1).card < fuel →
      idx < B →
      (∀ a ∈ st.1, a ∉ st.2 → rank idx < rank a) →
      st.2.Nodup →
      (∀ u ∈ st.2, u ∈ st.1 ∧ u < B) →
      TopoList σ st.2 →
      st.1 ⊆ (visitDFS σ fuel idx st).1
      ∧ (∃ new, (visitDFS σ fuel idx st).2 = st.2 ++ new
          ∧ ∀ u ∈ new, rank u ≤ rank idx)
      ∧ (visitDFS σ fuel idx st).2.Nodup
      ∧ (∀ u ∈ (visitDFS σ fuel idx st).2, u ∈ (visitDFS σ fuel idx st).1 ∧ u < B)
      ∧ TopoList σ (visitDFS σ fuel idx st).2
      ∧ (∀ u ∈ (visitDFS σ fuel idx st).1, u ∈ st.1 ∨ u ∈ (visitDFS σ fuel idx st).2)
      ∧ idx ∈ (visitDFS σ fuel idx st).1
      ∧ (idx ∉ st.1 → idx ∈ (visitDFS σ fuel idx st).2) := by
  intro fuel
  induction fuel with
  | zero =>
    intro idx st hfuel
    exact absurd hfuel (by omega)
  | succ fuel ih =>
    intro idx st hfuel hidxB hpre hnodup hord htopo
    by_cases hmem : idx ∈ st.1
    · have hstep : visitDFS σ (fuel + 1) idx st = st := by
        rw [visitDFS, if_pos hmem]
      rw [hstep]
      exact ⟨le_refl st.1, ⟨[], by simp, by simp⟩, hnodup, hord, htopo,
        fun u hu => Or.inl hu, hmem, fun h => absurd hmem h⟩
    · have hstep : visitDFS σ (fuel + 1) idx st
        = (let st1 : Finset ℕ × List ℕ := (insert idx st.1, st.2)
           let st2 := match σ idx with
             | some down => visitDFS σ fuel down st1
             | none => st1
           (st2.1, st2.2 ++ [idx])) := by
        rw [visitDFS, if_neg hmem]
      rw [hstep]
      have hidxnotord : idx ∉ st.2 := fun h => hmem (hord idx h).1
      match hσ : σ idx with
      | none =>
        simp only
        have hnot2 : idx ∉ st.2 := hidxnotord
        refine ⟨?_, ⟨[idx], by simp, by simp⟩, ?_, ?_, ?_, ?_, ?_, ?_⟩
        · exact Finset.subset_insert idx st.1
        · simpa [List.nodup_append] using ⟨hnodup, hnot2⟩
        · intro u hu
          rcases List.mem_append.mp hu with hu2 | hu2
          · obtain ⟨h1, h2⟩ := hord u hu2
            exact ⟨Finset.mem_insert_of_mem h1, h2⟩
          · rw [List.mem_singleton] at hu2
            subst hu2
            exact ⟨Finset.mem_insert_self u st.1, hidxB⟩
        · refine TopoList.append_last σ st.2 idx htopo ?_
          intro d hd
          rw [hσ] at hd
          cases hd
        · intro u hu
          rcases Finset.mem_insert.mp hu with rfl | hu2
          · exact Or.inr (by simp)
          · exact Or.inl hu2
        · exact Finset.mem_insert_self idx st.1
        · intro _
          simp
      | some down =>
        simp only
        have hdownB : down < B := hσB idx down hσ
        have hdownrank : rank down < rank idx := hσr idx down hσ
        have hfuel2 : (Finset.range B \ (insert idx st.1)).card < fuel := by
          have hsub : Finset.range B \ insert idx st.1
              = (Finset.range B \ st.1).erase idx := by
            ext a
            simp only [Finset.mem_sdiff, Finset.mem_erase, Finset.mem_insert,
              Finset.mem_range]
            tauto
          rw [hsub]
          have hin : idx ∈ Finset.range B \ st.1 :=
            Finset.mem_sdiff.mpr ⟨Finset.mem_range.mpr hidxB, hmem⟩
          have h1 := Finset.card_erase_of_mem hin
          have h2 := Finset.card_pos.mpr ⟨idx, hin⟩
          omega
        have hpre2 : ∀ a ∈ insert idx st.1, a ∉ st.2 → rank down < rank a := by
          intro a ha hna
          rcases Finset.mem_insert.mp ha with rfl | ha2
          · exact hdownrank
          · exact hdownrank.trans (hpre a ha2 hna)
        have hord2 : ∀ u ∈ st.2, u ∈ insert idx st.1 ∧ u < B := by
          intro u hu
          obtain ⟨h1, h2⟩ := hord u hu
          exact ⟨Finset.mem_insert_of_mem h1, h2⟩
        obtain ⟨rS1, ⟨new, hnew, hnewrank⟩, rNodup, rOrd, rTopo, rVis, rIdx, rIdxOrd⟩ :=
          ih down (insert idx st.1, st.2) hfuel2 hdownB hpre2 hnodup hord2 htopo
        set out := visitDFS σ fuel down (insert idx st.1, st.2) with hout
        have hidxnotout : idx ∉ out.2 := by
          rw [hnew]
          intro hc
          rcases List.mem_append.mp hc with hc2 | hc2
          · exact hidxnotord hc2
          · have := hnewrank idx hc2
            have := hdownrank
            linarith
        have hdown_in_ord : down ∈ out.2 := by
          by_cases hdv : down ∈ insert idx st.1
          · rcases Finset.mem_insert.mp hdv with rfl | hdv2
            · exact absurd hdownrank (lt_irrefl _)
            · by_cases hdo : down ∈ st.2
              · rw [hnew]
                exact List.mem_append.mpr (Or.inl hdo)
              · exact absurd hdownrank (by
                  have := hpre down hdv2 hdo
                  intro
                  linarith)
          · exact rIdxOrd hdv
        refine ⟨?_, ⟨new ++ [idx], by rw [hnew]; simp, ?_⟩, ?_, ?_, ?_, ?_, ?_, ?_⟩
        · exact fun a ha => rS1 (Finset.mem_insert_of_mem ha)
        · intro u hu
          rcases List.mem_append.mp hu with hu2 | hu2
          · exact (hnewrank u hu2).trans hdownrank.le
          · rw [List.mem_singleton] at hu2
            subst hu2
            exact le_refl _
        · simpa [List.nodup_append] using ⟨rNodup, hidxnotout⟩
        · intro u hu
          rcases List.mem_append.mp hu with hu2 | hu2
          · exact rOrd u hu2
          · rw [List.mem_singleton] at hu2
            subst hu2
            exact ⟨rS1 (Finset.mem_insert_self u st.1), hidxB⟩
        · exact TopoList.append_last σ out.2 idx rTopo (fun d hd => by
            rw [hσ] at hd
            cases hd
            exact hdown_in_ord)
        · intro u hu
          rcases rVis u hu with hu2 | hu2
          · rcases Finset.mem_insert.mp hu2 with rfl | hu3
            · exact Or.inr (List.mem_append.mpr (Or.inr (by simp)))
            · exact Or.inl hu3
          · exact Or.inr (List.mem_append.mpr (Or.inl hu2))
        · exact rS1 (Finset.mem_insert_self idx st.1)
        · intro _
          exact List.mem_append.mpr (Or.inr (by simp))

/-- The visit only ever appends to the postorder list. -/
lemma visitDFS_order_mono (σ : ℕ → Option ℕ) :
    ∀ (fuel idx : ℕ) (st : Finset ℕ × List ℕ),
      ∃ new, (visitDFS σ fuel idx st).2 = st.2 ++ new
  | 0, _, st => ⟨[], by simp [visitDFS]⟩
  | fuel + 1, idx, st => by
    by_cases hmem : idx ∈ st.1
    · exact ⟨[], by rw [visitDFS, if_pos hmem]; simp⟩
    · rw [visitDFS, if_neg hmem]
      match hσ : σ idx with
      | none => exact ⟨[idx], by simp⟩
      | some down =>
        obtain ⟨new, hnew⟩ := visitDFS_order_mono σ fuel down (insert idx st.1, st.2)
        exact ⟨new ++ [idx], by simp only; rw [hnew]; simp⟩

/-- The step-2 driver establishes the order invariants and visits every
land hex. -/
lemma buildOrder_spec (hexes : List Hex) (cols rows : ℕ)
    (hlen : hexes.length = cols * rows) :
    (buildOrder hexes cols rows).2.Nodup
    ∧ (∀ u ∈ (buildOrder hexes cols rows).2, u < hexes.length)
    ∧ TopoList (flowNext hexes cols rows) (buildOrder hexes cols rows).2
    ∧ (∀ i, i < hexes.length → landAt hexes i = true →
        i ∈ (buildOrder hexes cols rows).2) := by
  set σ := flowNext hexes cols rows with hσ
  set B := hexes.length with hB
  have hσB : ∀ u d, σ u = some d → d < B := by
    intro u d h
    have := (flowNext_spec hexes cols rows u d h).2.1
    omega
  have hσr : ∀ u d, σ u = some d → elevAt hexes d < elevAt hexes u := by
    intro u d h
    exact (flowNext_spec hexes cols rows u d h).2.2.2
  have main : ∀ (l : List ℕ) (st : Finset ℕ × List ℕ), (∀ i ∈ l, i < B) →
      st.2.Nodup → (∀ u ∈ st.2, u ∈ st.1 ∧ u < B) → TopoList σ st.2 →
      (∀ u ∈ st.1, u ∈ st.2) →
      (l.foldl (fun st i => if landAt hexes i then visitDFS σ (B + 1) i st else st) st).2.Nodup
      ∧ (∀ u ∈ (l.foldl (fun st i => if landAt hexes i then visitDFS σ (B + 1) i st else st) st).2,
          u ∈ (l.foldl (fun st i => if landAt hexes i then visitDFS σ (B + 1) i st else st) st).1
          ∧ u < B)
      ∧ TopoList σ (l.foldl (fun st i => if landAt hexes i then visitDFS σ (B + 1) i st else st) st).2
      ∧ (∀ u ∈ (l.foldl (fun st i => if landAt hexes i then visitDFS σ (B + 1) i st else st) st).1,
          u ∈ (l.foldl (fun st i => if landAt hexes i then visitDFS σ (B + 1) i st else st) st).2)
      ∧ (∀ i ∈ l, landAt hexes i = true →
          i ∈ (l.foldl (fun st i => if landAt hexes i then visitDFS σ (B + 1) i st else st) st).2) := by
    intro l
    induction l with
    | nil =>
      intro st _ hnodup hord htopo hcl
      exact ⟨hnodup, fun u hu => ⟨(hord u hu).1, (hord u hu).2⟩, htopo, hcl,
        fun i hi => absurd hi (List.not_mem_nil i)⟩
    | cons i t ih =>
      intro st hl hnodup hord htopo hcl
      rw [List.foldl_cons]
      by_cases hland : landAt hexes i
      · simp only [hland, if_true]
        have hiB : i < B := hl i (List.mem_cons_self i t)
        have hfuel : (Finset.range B \ st.1).card < B + 1 := by
          have h1 : (Finset.range B \ st.1).card ≤ (Finset.range B).card :=
            Finset.card_le_card (Finset.sdiff_subset)
          rw [Finset.card_range] at h1
          omega
        have hpre : ∀ a ∈ st.1, a ∉ st.2 → elevAt hexes i < elevAt hexes a := by
          intro a ha hna
          exact absurd (hcl a ha) hna
        obtain ⟨rS1, ⟨new, hnew, -⟩, rNodup, rOrd, rTopo, rVis, rIdx, rIdxOrd⟩ :=
          visitDFS_spec σ B (elevAt hexes) hσB hσr (B + 1) i st hfuel hiB hpre
            hnodup hord htopo
        set out := visitDFS σ (B + 1) i st with hout
        have houtcl : ∀ u ∈ out.1, u ∈ out.2 := by
          intro u hu
          rcases rVis u hu with hu2 | hu2
          · rw [hnew]
            exact List.mem_append.mpr (Or.inl (hcl u hu2))
          · exact hu2
        have hrest := ih out (fun j hj => hl j (List.mem_cons_of_mem i hj))
          rNodup rOrd rTopo houtcl
        refine ⟨hrest.1, hrest.2.1, hrest.2.2.1, hrest.2.2.2.1, ?_⟩
        intro j hj hjland
        rcases List.mem_cons.mp hj with rfl | hj2
        · -- j = i : it is in out.2, and the rest of the fold only appends
          have hin2 : j ∈ out.2 := houtcl j rIdx
          -- order lists only grow along the fold
          have hgrow : ∀ (l2 : List ℕ) (st2 : Finset ℕ × List ℕ), ∀ u ∈ st2.2,
              u ∈ (l2.foldl (fun st i => if landAt hexes i then visitDFS σ (B + 1) i st else st) st2).2 := by
            intro l2
            induction l2 with
            | nil => intro st2 u hu; exact hu
            | cons a t2 ih2 =>
              intro st2 u hu
              rw [List.foldl_cons]
              apply ih2
              by_cases ha : landAt hexes a
              · simp only [ha, if_true]
                obtain ⟨new2, hnew2⟩ := visitDFS_order_mono σ (B + 1) a st2
                rw [hnew2]
                exact List.mem_append.mpr (Or.inl hu)
              · simp only [ha, if_false]
                exact hu
          exact hgrow t out j hin2
        · exact hrest.2.2.2.2 j hj2 hjland
      · simp only [hland, if_false]
        have hrest := ih st (fun j hj => hl j (List.mem_cons_of_mem i hj))
          hnodup hord htopo hcl
        refine ⟨hrest.1, hrest.2.1, hrest.2.2.1, hrest.2.2.2.1, ?_⟩
        intro j hj hjland
        rcases List.mem_cons.mp hj with rfl | hj2
        · exact absurd hjland hland
        · exact hrest.2.2.2.2 j hj2 hjland
  have hfin := main (List.range B) (∅, []) (fun i hi => List.mem_range.mp hi)
    List.nodup_nil (fun u hu => absurd hu (List.not_mem_nil u)) (TopoList.nil σ)
    (fun u hu => absurd hu (Finset.not_mem_empty u))
  exact ⟨hfin.1, fun u hu => (hfin.2.1 u hu).2, hfin.2.2.1,
    fun i hi hland => hfin.2.2.2.2 i (List.mem_range.mpr hi) hland⟩

/-- Reading a topological list backwards: wherever the reversed list is
split, the element's flow target still lies ahead. -/
lemma TopoList.reverse_mem (σ : ℕ → Option ℕ) (ord : List ℕ) (h : TopoList σ ord) :
    ∀ p u rest, ord.reverse = p ++ u :: rest → ∀ d, σ u = some d → d ∈ rest := by
  intro p u rest heq d hd
  have h2 : ord = rest.reverse ++ u :: p.reverse := by
    have h3 := congrArg List.reverse heq
    rw [List.reverse_reverse] at h3
    rw [h3]
    simp
  exact List.mem_reverse.mp (h rest.reverse u p.reverse h2 d hd)

/-- One accumulation step seen pointwise. -/
lemma accumulate_cons (σ : ℕ → Option ℕ) (u : ℕ) (rest : List ℕ) (acc : ℕ → ℕ) :
    accumulate σ (u :: rest) acc
      = accumulate σ rest
          (match σ u with
           | some down => fun j => if j = down then acc j + acc u else acc j
           | none => acc) := by
  rw [accumulate, List.foldl_cons, accumulate]

/-- Conservation of the accumulation sweep: the total mass sitting on
terminal hexes grows by exactly the mass of each processed hex with a
target, because topological order guarantees the target is processed
later and so still forwards everything it receives. -/
lemma accumulate_conserve (σ : ℕ → Option ℕ) (B : ℕ)
    (hσB : ∀ u d, σ u = some d → d < B) :
    ∀ (L : List ℕ) (acc : ℕ → ℕ),
      (∀ p u rest, L = p ++ u :: rest → ∀ d, σ u = some d → d ∈ rest) →
      L.Nodup →
      ∑ j in (Finset.range B).filter (fun j => σ j = none), accumulate σ L acc j
        = (∑ j in (Finset.range B).filter (fun j => σ j = none), acc j)
          + ((L.filter (fun u => σ u ≠ none)).map acc).sum
  | [], acc, _, _ => by
    rw [accumulate]
    simp
  | u :: rest, acc, htopo, hnodup => by
    have htoporest : ∀ p v r2, rest = p ++ v :: r2 → ∀ d, σ v = some d → d ∈ r2 := by
      intro p v r2 hsplit d hd
      exact htopo (u :: p) v r2 (by rw [hsplit]; rfl) d hd
    have hnodup2 : rest.Nodup := (List.nodup_cons.mp hnodup).2
    rw [accumulate_cons]
    match hσu : σ u with
    | none =>
      have := accumulate_conserve σ B hσB rest acc htoporest hnodup2
      rw [this]
      have hfu : (u :: rest).filter (fun v => σ v ≠ none)
          = rest.filter (fun v => σ v ≠ none) := by
        rw [List.filter_cons]
        simp [hσu]
      rw [hfu]
    | some d =>
      have hdrest : d ∈ rest := htopo [] u rest (by rfl) d hσu
      have hdB : d < B := hσB u d hσu
      have hdu : d ≠ u := fun h => (List.nodup_cons.mp hnodup).1 (h ▸ hdrest)
      set acc1 : ℕ → ℕ := fun j => if j = d then acc j + acc u else acc j with hacc1
      have := accumulate_conserve σ B hσB rest acc1 htoporest hnodup2
      rw [this]
      have hpoint : ∀ j, acc1 j = acc j + (if j = d then acc u else 0) := by
        intro j
        rw [hacc1]
        by_cases hj : j = d
        · simp [hj]
        · simp [hj]
      have hterm : ∑ j in (Finset.range B).filter (fun j => σ j = none), acc1 j
          = (∑ j in (Finset.range B).filter (fun j => σ j = none), acc j)
            + (if σ d = none then acc u else 0) := by
        calc ∑ j in (Finset.range B).filter (fun j => σ j = none), acc1 j
            = ∑ j in (Finset.range B).filter (fun j => σ j = none),
                (acc j + if j = d then acc u else 0) := by
              exact Finset.sum_congr rfl fun j _ => hpoint j
          _ = (∑ j in (Finset.range B).filter (fun j => σ j = none), acc j)
              + ∑ j in (Finset.range B).filter (fun j => σ j = none),
                  (if j = d then acc u else 0) := Finset.sum_add_distrib
          _ = (∑ j in (Finset.range B).filter (fun j => σ j = none), acc j)
              + (if σ d = none then acc u else 0) := by
              congr 1
              rw [Finset.sum_ite_eq' ((Finset.range B).filter (fun j => σ j = none)) d
                (fun _ => acc u)]
              by_cases hd : σ d = none
              · simp [hd, Finset.mem_filter, Finset.mem_range, hdB]
              · simp [hd, Finset.mem_filter]
      have hlist : ((rest.filter (fun v => σ v ≠ none)).map acc1).sum
          = ((rest.filter (fun v => σ v ≠ none)).map acc).sum
            + (if σ d = none then 0 else acc u) := by
        by_cases hd : σ d = none
        · rw [if_pos hd]
          have hcong : (rest.filter (fun v => σ v ≠ none)).map acc1
              = (rest.filter (fun v => σ v ≠ none)).map acc := by
            apply List.map_congr_left
            intro v hv
            have hvne : σ v ≠ none := by simpa using (List.mem_filter.mp hv).2
            have hvd : v ≠ d := fun h => hvne (h ▸ hd)
            rw [hacc1]
            simp [hvd]
          rw [hcong]
          omega
        · rw [if_neg hd]
          have hdf : d ∈ rest.filter (fun v => decide (σ v ≠ none)) :=
            List.mem_filter.mpr ⟨hdrest, by simpa using hd⟩
          obtain ⟨s, t, hsplit⟩ := List.append_of_mem hdf
          rw [hsplit]
          have hnodupf : (s ++ d :: t).Nodup := by
            rw [← hsplit]
            exact List.Nodup.filter _ hnodup2
          have hds : d ∉ s := by
            intro hc
            rw [List.nodup_append] at hnodupf
            exact hnodupf.2.2 hc (List.mem_cons_self d t)
          have hdt : d ∉ t := by
            have := hnodupf
            rw [List.nodup_append] at this
            exact (List.nodup_cons.mp this.2.1).1
          rw [List.map_append, List.map_append, List.sum_append, List.sum_append]
          have hs : s.map acc1 = s.map acc :=
            List.map_congr_left fun v hv => by
              have hvd : v ≠ d := fun h => hds (h ▸ hv)
              rw [hacc1]
              simp [hvd]
          have ht : t.map acc1 = t.map acc :=
            List.map_congr_left fun v hv => by
              have hvd : v ≠ d := fun h => hdt (h ▸ hv)
              rw [hacc1]
              simp [hvd]
          rw [hs]
          have hd1 : acc1 d = acc d + acc u := by rw [hacc1]; simp
          rw [List.map_cons, List.map_cons, List.sum_cons, List.sum_cons, hd1, ht]
          omega
      rw [hterm, hlist]
      have hfu : (u :: rest).filter (fun v => σ v ≠ none)
          = u :: rest.filter (fun v => σ v ≠ none) := by
        rw [List.filter_cons]
        simp [hσu]
      rw [hfu, List.map_cons, List.sum_cons]
      by_cases hdn : σ d = none
      · simp [hdn]
        omega
      · simp [hdn]
        omega

lemma sum_map_ones {f : ℕ → ℕ} : ∀ (M : List ℕ), (∀ x ∈ M, f x = 1) →
    (M.map f).sum = M.length
  | [], _ => rfl
  | x :: t, h => by
    rw [List.map_cons, List.sum_cons, h x (List.mem_cons_self x t),
      sum_map_ones t fun y hy => h y (List.mem_cons_of_mem x hy)]
    rw [List.length_cons]
    omega

/-- Flow-accumulation conservation, in the form that holds on the code:
summing the final accumulation over every hex without a flow direction
(land sinks and water outlets alike) yields the land hex count. -/
lemma flowAccum_conserve (hexes : List Hex) (cols rows : ℕ)
    (hlen : hexes.length = cols * rows) :
    ∑ j in (Finset.range hexes.length).filter
        (fun j => flowNext hexes cols rows j = none),
      flowAccumFun hexes cols rows j
    = (hexes.filter Hex.isLand).length := by
  set σ := flowNext hexes cols rows with hσdef
  set B := hexes.length with hBdef
  obtain ⟨hnodup, hbound, htopo, hall⟩ := buildOrder_spec hexes cols rows hlen
  set ord := (buildOrder hexes cols rows).2 with horddef
  have hσB : ∀ u d, σ u = some d → d < B := by
    intro u d h
    have := (flowNext_spec hexes cols rows u d h).2.1
    omega
  have hσland : ∀ u d, σ u = some d → landAt hexes u = true := by
    intro u d h
    exact (flowNext_spec hexes cols rows u d h).2.2.1
  have hrevtopo := TopoList.reverse_mem σ ord htopo
  have hrevnodup : ord.reverse.Nodup := List.nodup_reverse.mpr hnodup
  have hcons := accumulate_conserve σ B hσB ord.reverse (flowAccumInit hexes)
    hrevtopo hrevnodup
  have hfun : flowAccumFun hexes cols rows = accumulate σ ord.reverse (flowAccumInit hexes) :=
    Eq.refl _
  have hsum0 : ∑ j in (Finset.range B).filter (fun j => σ j = none),
      flowAccumInit hexes j
      = (((Finset.range B).filter (fun j => σ j = none)).filter
          (fun j => landAt hexes j = true)).card := by
    rw [Finset.card_filter]
    apply Finset.sum_congr rfl
    intro j _
    rw [flowAccumInit]
  have hsum1 : ((ord.reverse.filter (fun u => σ u ≠ none)).map (flowAccumInit hexes)).sum
      = (ord.reverse.filter (fun u => σ u ≠ none)).length := by
    apply sum_map_ones
    intro x hx
    have hxs : σ x ≠ none := by simpa using (List.mem_filter.mp hx).2
    match hs : σ x with
    | none => exact absurd hs hxs
    | some d =>
      rw [flowAccumInit, if_pos (hσland x d hs)]
  have hlen1 : (ord.reverse.filter (fun u => σ u ≠ none)).length
      = ((Finset.range B).filter (fun u => σ u ≠ none)).card := by
    have hnodupf : (ord.reverse.filter (fun u => decide (σ u ≠ none))).Nodup :=
      hrevnodup.filter _
    rw [← List.toFinset_card_of_nodup hnodupf]
    congr 1
    apply Finset.ext
    intro u
    rw [List.mem_toFinset, List.mem_filter, List.mem_reverse, Finset.mem_filter,
      Finset.mem_range]
    constructor
    · rintro ⟨hmem, hdec⟩
      exact ⟨hbound u hmem, by simpa using hdec⟩
    · rintro ⟨huB, hune⟩
      match hs : σ u with
      | none => exact absurd hs (by simpa using hune)
      | some d =>
        exact ⟨hall u huB (hσland u d hs), by simp [hs]⟩
  rw [hfun, hcons, hsum0, hsum1, hlen1]
  have hA1 : ((Finset.range B).filter (fun j => σ j = none)).filter
      (fun j => landAt hexes j = true)
      = ((Finset.range B).filter (fun j => landAt hexes j = true)).filter
          (fun j => σ j = none) := by
    rw [Finset.filter_filter, Finset.filter_filter]
    apply Finset.filter_congr
    intro j _
    simp [and_comm]
  have hA2 : (Finset.range B).filter (fun u => σ u ≠ none)
      = ((Finset.range B).filter (fun j => landAt hexes j = true)).filter
          (fun j => ¬ σ j = none) := by
    rw [Finset.filter_filter]
    apply Finset.filter_congr
    intro j _
    constructor
    · intro hne
      match hs : σ j with
      | none => exact absurd hs (by simpa using hne)
      | some d => simpa [hs] using hσland j d hs
    · intro h2
      simpa using h2.2
  rw [hA1, hA2]
  rw [Finset.filter_card_add_filter_neg_card_eq_card (fun j => σ j = none)]
  exact card_landFinset hexes

/-- C1, the claim as stated fails: on `riverGrid2` the only land hex
has a flow direction (into the water hex), so the sum of `flowAccum`
over land hexes with `flowDir = none` is `0`, not the land count `1`;
the accumulation terminates on the water hex instead. -/
theorem claim_C1_counterexample :
    ∑ j in (Finset.range riverGrid2.length).filter
        (fun j => landAt riverGrid2 j = true ∧ flowNext riverGrid2 1 2 j = none),
      flowAccumFun riverGrid2 1 2 j
    ≠ (riverGrid2.filter Hex.isLand).length := by
  decide

/-- C1 (amended): the sum of the final flow accumulation over all
terminal hexes — every hex with `flowDir = none`, water hexes included —
equals the total land hex count; restricting the sum to land terminals
loses the mass that drains into the sea.  The first conjunct ties the
sum to the arrays `generateRivers` returns. -/
theorem claim_C1 (hexes : List Hex) (cfg : RiverConfig)
    (hlen : hexes.length = cfg.cols * cfg.rows) :
    (generateRivers hexes cfg).flowAccum
        = (List.range hexes.length).map (flowAccumFun hexes cfg.cols cfg.rows)
    ∧ ∑ j in (Finset.range hexes.length).filter
          (fun j => flowNext hexes cfg.cols cfg.rows j = none),
        flowAccumFun hexes cfg.cols cfg.rows j
      = (hexes.filter Hex.isLand).length :=
  ⟨Eq.refl _, flowAccum_conserve hexes cfg.cols cfg.rows hlen⟩

/-- Witness for C1 on the 1x2 grid: the water sink holds the single
unit of land accumulation. -/
theorem claim_C1_witness :
    (generateRivers riverGrid2 { cols := 1, rows := 2 }).flowAccum
        = (List.range riverGrid2.length).map (flowAccumFun riverGrid2 1 2)
    ∧ ∑ j in (Finset.range riverGrid2.length).filter
          (fun j => flowNext riverGrid2 1 2 j = none),
        flowAccumFun riverGrid2 1 2 j
      = (riverGrid2.filter Hex.isLand).length :=
  claim_C1 riverGrid2 { cols := 1, rows := 2 } (by decide)

/-- Witness for C2 on the 1x2 grid. -/
theorem claim_C2_witness :
    (∀ i j, flowNext riverGrid2 1 2 i = some j →
        elevAt riverGrid2 j < elevAt riverGrid2 i ∧ landAt riverGrid2 i = true
          ∧ j < riverGrid2.length)
    ∧ (∀ k i j, 0 < k → iterFlow (flowNext riverGrid2 1 2) k i = some j → j ≠ i)
    ∧ (∀ i, landAt riverGrid2 i = true →
        ∃ k ≤ (riverGrid2.filter Hex.isLand).length, ∃ j,
          iterFlow (flowNext riverGrid2 1 2) k i = some j
          ∧ flowNext riverGrid2 1 2 j = none) :=
  claim_C2 riverGrid2 1 2 (by decide)

/-! ### Lemmas: flood-fill region labeling -/

lemma directions_neg : ∀ d ∈ directions, (-d.1, -d.2) ∈ directions := by
  intro d hd
  fin_cases hd <;> decide

lemma WFGrid.coords (hs : List Hex) (cols rows : ℕ) (hwf : WFGrid hs cols rows)
    (i : ℕ) (hx : Hex) (hg : hs.get? i = some hx) :
    hx.q = ((i % cols : ℕ) : ℤ) ∧ hx.r = ((i / cols : ℕ) : ℤ) := by
  have hi : i < hs.length := (List.get?_eq_some.mp hg).1
  have := hwf.2 i hi
  rw [hg] at this
  simpa using this

lemma nbrIndices_mem (hs : List Hex) (cols rows : ℕ) (hwf : WFGrid hs cols rows)
    (a b : ℕ) (ha : a < hs.length) :
    b ∈ nbrIndices hs cols rows a ↔
      ∃ d ∈ directions,
        inBounds cols rows (((a % cols : ℕ) : ℤ) + d.1) (((a / cols : ℕ) : ℤ) + d.2) = true
        ∧ b = (hexIndex (((a % cols : ℕ) : ℤ) + d.1) (((a / cols : ℕ) : ℤ) + d.2) cols).toNat := by
  rw [nbrIndices]
  match hg : hs.get? a with
  | none =>
    exact absurd hg (by
      intro h
      rw [List.get?_eq_getElem?] at h
      rw [List.getElem?_eq_none_iff] at h
      omega)
  | some hx =>
    obtain ⟨hq, hr⟩ := WFGrid.coords hs cols rows hwf a hx hg
    rw [List.mem_filterMap]
    constructor
    · rintro ⟨d, hd, hsome⟩
      by_cases hb : inBounds cols rows (hx.q + d.1) (hx.r + d.2)
      · rw [if_pos hb] at hsome
        cases hsome
        exact ⟨d, hd, by rw [← hq, ← hr]; exact ⟨hb, rfl⟩⟩
      · rw [if_neg hb] at hsome
        cases hsome
    · rintro ⟨d, hd, hb, rfl⟩
      refine ⟨d, hd, ?_⟩
      rw [hq, hr]
      rw [if_pos hb]

lemma nbrIndices_lt (hs : List Hex) (cols rows : ℕ) (hwf : WFGrid hs cols rows)
    (a b : ℕ) (ha : a < hs.length) (hb : b ∈ nbrIndices hs cols rows a) :
    b < cols * rows := by
  rw [nbrIndices_mem hs cols rows hwf a b ha] at hb
  obtain ⟨d, -, hbnd, rfl⟩ := hb
  rw [inBounds] at hbnd
  simp only [Bool.and_eq_true, decide_eq_true_eq] at hbnd
  obtain ⟨⟨⟨hq0, hqc⟩, hr0⟩, hrr⟩ := hbnd
  rw [hexIndex]
  have h1 : (((a / cols : ℕ) : ℤ) + d.2) * (cols : ℤ) + (((a % cols : ℕ) : ℤ) + d.1)
      < (rows : ℤ) * (cols : ℤ) := by nlinarith
  have h2 : (0 : ℤ) ≤ (((a / cols : ℕ) : ℤ) + d.2) * (cols : ℤ) + (((a % cols : ℕ) : ℤ) + d.1) := by
    positivity
  have h3 : (rows : ℤ) * (cols : ℤ) = ((rows * cols : ℕ) : ℤ) := by push_cast; ring
  have h4 : rows * cols = cols * rows := Nat.mul_comm rows cols
  omega

/-- The row-major index arithmetic behind neighbour symmetry. -/
lemma nbr_index_decomp (cols : ℕ) (nq nr : ℤ) (h0q : 0 ≤ nq) (hqc : nq < (cols : ℤ))
    (h0r : 0 ≤ nr) :
    ((hexIndex nq nr cols).toNat % cols : ℕ) = nq.toNat
    ∧ ((hexIndex nq nr cols).toNat / cols : ℕ) = nr.toNat := by
  have hcols : 0 < cols := by
    rcases Nat.eq_zero_or_pos cols with h | h
    · subst h
      simp at hqc
      omega
    · exact h
  have hval : (hexIndex nq nr cols).toNat = nr.toNat * cols + nq.toNat := by
    rw [hexIndex]
    have : nr * (cols : ℤ) + nq = ((nr.toNat * cols + nq.toNat : ℕ) : ℤ) := by
      push_cast
      rw [Int.toNat_of_nonneg h0r, Int.toNat_of_nonneg h0q]
    rw [this, Int.toNat_natCast]
  have hqlt : nq.toNat < cols := by omega
  constructor
  · rw [hval, Nat.add_comm, Nat.add_mul_mod_self_right]
    exact Nat.mod_eq_of_lt hqlt
  · rw [hval, Nat.add_comm, Nat.add_mul_div_right _ _ hcols, Nat.div_eq_of_lt hqlt]
    omega

/-- Land adjacency is symmetric on a well-formed grid. -/
lemma adjStep_symm (hs : List Hex) (cols rows : ℕ) (hwf : WFGrid hs cols rows)
    (a b : ℕ) (h : adjStep hs cols rows a b) : adjStep hs cols rows b a := by
  obtain ⟨hla, hlb, hmem⟩ := h
  have hlen := hwf.1
  have haN : a < hs.length := by
    rw [landAt] at hla
    match hg : hs.get? a with
    | none => rw [hg] at hla; simp at hla
    | some hx => exact (List.get?_eq_some.mp hg).1
  have hbN : b < hs.length := by
    rw [landAt] at hlb
    match hg : hs.get? b with
    | none => rw [hg] at hlb; simp at hlb
    | some hx => exact (List.get?_eq_some.mp hg).1
  refine ⟨hlb, hla, ?_⟩
  rw [nbrIndices_mem hs cols rows hwf a b haN] at hmem
  obtain ⟨d, hd, hbnd, rfl⟩ := hmem
  rw [inBounds] at hbnd
  simp only [Bool.and_eq_true, decide_eq_true_eq] at hbnd
  obtain ⟨⟨⟨hq0, hqc⟩, hr0⟩, hrr⟩ := hbnd
  set nq := ((a % cols : ℕ) : ℤ) + d.1 with hnq
  set nr := ((a / cols : ℕ) : ℤ) + d.2 with hnr
  obtain ⟨hmod, hdiv⟩ := nbr_index_decomp cols nq nr hq0 hqc hr0
  rw [nbrIndices_mem hs cols rows hwf _ a hbN]
  refine ⟨(-d.1, -d.2), directions_neg d hd, ?_, ?_⟩
  · rw [hmod, hdiv, inBounds]
    have hcolpos : 0 < cols := by omega
    have h1 : (nq.toNat : ℤ) = nq := Int.toNat_of_nonneg hq0
    have h2 : (nr.toNat : ℤ) = nr := Int.toNat_of_nonneg hr0
    have hq2 : ((a % cols : ℕ) : ℤ) = nq + -d.1 := by rw [hnq]; ring
    have hr2 : ((a / cols : ℕ) : ℤ) = nr + -d.2 := by rw [hnr]; ring
    have hmodlt : ((a % cols : ℕ) : ℤ) < (cols : ℤ) := by
      have := Nat.mod_lt a hcolpos
      omega
    have hdivlt : ((a / cols : ℕ) : ℤ) < (rows : ℤ) := by
      have : a / cols < rows := by
        apply Nat.div_lt_of_lt_mul
        omega
      omega
    simp only [Bool.and_eq_true, decide_eq_true_eq]
    refine ⟨⟨⟨?_, ?_⟩, ?_⟩, ?_⟩
    · rw [h1, ← hq2]; positivity
    · rw [h1, ← hq2]; exact hmodlt
    · rw [h2, ← hr2]; positivity
    · rw [h2, ← hr2]; exact hdivlt
  · rw [hmod, hdiv]
    have h1 : (nq.toNat : ℤ) = nq := Int.toNat_of_nonneg hq0
    have h2 : (nr.toNat : ℤ) = nr := Int.toNat_of_nonneg hr0
    rw [hexIndex]
    have : ((nr.toNat : ℕ) : ℤ) + -d.2 = ((a / cols : ℕ) : ℤ) := by rw [h2, hnr]; ring
    rw [this]
    have : ((nq.toNat : ℕ) : ℤ) + -d.1 = ((a % cols : ℕ) : ℤ) := by rw [h1, hnq]; ring
    rw [this]
    have : ((a / cols : ℕ) : ℤ) * (cols : ℤ) + ((a % cols : ℕ) : ℤ) = (a : ℤ) := by
      exact_mod_cast Nat.div_add_mod' a cols
    rw [this, Int.toNat_natCast]

/-- Connectivity is symmetric on a well-formed grid. -/
lemma Conn_symm (hs : List Hex) (cols rows : ℕ) (hwf : WFGrid hs cols rows)
    (a b : ℕ) (h : Conn hs cols rows a b) : Conn hs cols rows b a := by
  induction h with
  | refl => exact Relation.ReflTransGen.refl
  | tail hab hbc ih =>
    exact Relation.ReflTransGen.head (adjStep_symm hs cols rows hwf _ _ hbc) ih

lemma nbrIndices_length_le (hs : List Hex) (cols rows : ℕ) (idx : ℕ) :
    (nbrIndices hs cols rows idx).length ≤ 6 := by
  rw [nbrIndices]
  match hs.get? idx with
  | none => simp
  | some h => exact (List.length_filterMap_le _ _).trans (by rw [directions]; simp)

/-- The master specification of the flood-fill loop: with enough fuel
it visits exactly the stack's land components, is closed under land
adjacency provided the incoming visited set only owed frontier work to
the stack, and assigns the current region id to precisely the newly
visited hexes. -/
lemma floodLoop_spec (hs : List Hex) (cols rows rid : ℕ) (hwf : WFGrid hs cols rows) :
    ∀ (fuel : ℕ) (stack : List ℕ) (vis : Finset ℕ) (reg : ℕ → Option ℕ),
      stack.length + 6 * ((Finset.range (cols * rows) \ vis).card) < fuel →
      (∀ t ∈ stack, t < cols * rows ∧ landAt hs t = true) →
      (∀ u ∈ vis, ∀ w, adjStep hs cols rows u w → w ∈ vis ∨ w ∈ stack) →
      vis ⊆ (floodLoop hs cols rows rid fuel stack vis reg).1
      ∧ (∀ u ∈ (floodLoop hs cols rows rid fuel stack vis reg).1,
          u ∈ vis ∨ ∃ t ∈ stack, Conn hs cols rows t u)
      ∧ (∀ u ∈ (floodLoop hs cols rows rid fuel stack vis reg).1, ∀ w,
          adjStep hs cols rows u w → w ∈ (floodLoop hs cols rows rid fuel stack vis reg).1)
      ∧ (∀ j, j ∉ (floodLoop hs cols rows rid fuel stack vis reg).1 →
          (floodLoop hs cols rows rid fuel stack vis reg).2 j = reg j)
      ∧ (∀ j, j ∈ vis → (floodLoop hs cols rows rid fuel stack vis reg).2 j = reg j)
      ∧ (∀ j, j ∈ (floodLoop hs cols rows rid fuel stack vis reg).1 → j ∉ vis →
          (floodLoop hs cols rows rid fuel stack vis reg).2 j = some rid)
      ∧ (∀ u ∈ (floodLoop hs cols rows rid fuel stack vis reg).1,
          u ∈ vis ∨ (landAt hs u = true ∧ u < cols * rows))
      ∧ (∀ t ∈ stack, t ∈ (floodLoop hs cols rows rid fuel stack vis reg).1) := by
  intro fuel
  induction fuel with
  | zero =>
    intro stack vis reg hfuel
    exact absurd hfuel (by omega)
  | succ fuel ih =>
    intro stack vis reg hfuel hstack hpre
    match stack with
    | [] =>
      rw [floodLoop]
      refine ⟨le_refl vis, fun u hu => Or.inl hu, ?_, fun j _ => rfl, fun j _ => rfl,
        fun j hj hnj => absurd hj hnj, fun u hu => Or.inl hu,
        fun t ht => absurd ht (List.not_mem_nil t)⟩
      intro u hu w hw
      rcases hpre u hu w hw with h | h
      · exact h
      · exact absurd h (List.not_mem_nil w)
    | idx :: rest =>
      by_cases hmem : idx ∈ vis
      · have hloop : floodLoop hs cols rows rid (fuel + 1) (idx :: rest) vis reg
            = floodLoop hs cols rows rid fuel rest vis reg := by
          rw [floodLoop, if_pos hmem]
        rw [hloop]
        have hrest := ih rest vis reg
          (by
            rw [List.length_cons] at hfuel
            omega)
          (fun t ht => hstack t (List.mem_cons_of_mem idx ht))
          (by
            intro u hu w hw
            rcases hpre u hu w hw with h | h
            · exact Or.inl h
            · rcases List.mem_cons.mp h with rfl | h2
              · exact Or.inl hmem
              · exact Or.inr h2)
        refine ⟨hrest.1, ?_, hrest.2.2.1, hrest.2.2.2.1, hrest.2.2.2.2.1,
          hrest.2.2.2.2.2.1, hrest.2.2.2.2.2.2.1, ?_⟩
        · intro u hu
          rcases hrest.2.1 u hu with h | ⟨t, ht, hc⟩
          · exact Or.inl h
          · exact Or.inr ⟨t, List.mem_cons_of_mem idx ht, hc⟩
        · intro t ht
          rcases List.mem_cons.mp ht with rfl | h2
          · exact hrest.1 hmem
          · exact hrest.2.2.2.2.2.2.2 t h2
      · obtain ⟨hidxB, hidxland⟩ := hstack idx (List.mem_cons_self idx rest)
        have hloop : floodLoop hs cols rows rid (fuel + 1) (idx :: rest) vis reg
            = floodLoop hs cols rows rid fuel
                (((nbrIndices hs cols rows idx).filter
                  fun n => !(decide (n ∈ insert idx vis)) && landAt hs n).reverse ++ rest)
                (insert idx vis)
                (fun j => if j = idx then some rid else reg j) := by
          rw [floodLoop, if_neg hmem]
        rw [hloop]
        set vis1 := insert idx vis with hvis1
        set reg1 : ℕ → Option ℕ := fun j => if j = idx then some rid else reg j with hreg1
        set pushes := (nbrIndices hs cols rows idx).filter
          fun n => !(decide (n ∈ vis1)) && landAt hs n with hpushes
        have hpushmem : ∀ w, w ∈ pushes ↔
            (w ∈ nbrIndices hs cols rows idx ∧ w ∉ vis1 ∧ landAt hs w = true) := by
          intro w
          rw [hpushes, List.mem_filter]
          constructor
          · rintro ⟨h1, h2⟩
            simp only [Bool.and_eq_true, Bool.not_eq_true', decide_eq_false_iff_not] at h2
            exact ⟨h1, h2.1, h2.2⟩
          · rintro ⟨h1, h2, h3⟩
            refine ⟨h1, ?_⟩
            simp only [Bool.and_eq_true, Bool.not_eq_true', decide_eq_false_iff_not]
            exact ⟨h2, h3⟩
        have hfuel2 : (pushes.reverse ++ rest).length
            + 6 * ((Finset.range (cols * rows) \ vis1).card) < fuel := by
          have hsub : Finset.range (cols * rows) \ vis1
              = (Finset.range (cols * rows) \ vis).erase idx := by
            ext a
            rw [hvis1]
            simp only [Finset.mem_sdiff, Finset.mem_erase, Finset.mem_insert,
              Finset.mem_range]
            tauto
          have hin : idx ∈ Finset.range (cols * rows) \ vis :=
            Finset.mem_sdiff.mpr ⟨Finset.mem_range.mpr hidxB, hmem⟩
          have hcard := Finset.card_erase_of_mem hin
          have hpos := Finset.card_pos.mpr ⟨idx, hin⟩
          have hplen : pushes.length ≤ 6 := by
            rw [hpushes]
            exact (List.length_filter_le _ _).trans (nbrIndices_length_le hs cols rows idx)
          rw [List.length_append, List.length_reverse]
          rw [List.length_cons] at hfuel
          rw [hsub]
          omega
        have hstack2 : ∀ t ∈ pushes.reverse ++ rest,
            t < cols * rows ∧ landAt hs t = true := by
          intro t ht
          rcases List.mem_append.mp ht with h | h
          · rw [List.mem_reverse] at h
            rw [hpushmem] at h
            refine ⟨?_, h.2.2⟩
            exact nbrIndices_lt hs cols rows hwf idx t (by rw [hwf.1]; exact hidxB) h.1
          · exact hstack t (List.mem_cons_of_mem idx h)
        have hpre2 : ∀ u ∈ vis1, ∀ w, adjStep hs cols rows u w →
            w ∈ vis1 ∨ w ∈ pushes.reverse ++ rest := by
          intro u hu w hw
          rcases Finset.mem_insert.mp hu with rfl | hu2
          · by_cases hwv : w ∈ vis1
            · exact Or.inl hwv
            · refine Or.inr (List.mem_append.mpr (Or.inl ?_))
              rw [List.mem_reverse, hpushmem]
              exact ⟨hw.2.2, hwv, hw.2.1⟩
          · rcases hpre u hu2 w hw with h | h
            · exact Or.inl (Finset.mem_insert_of_mem h)
            · rcases List.mem_cons.mp h with rfl | h2
              · exact Or.inl (Finset.mem_insert_self w vis)
              · exact Or.inr (List.mem_append.mpr (Or.inr h2))
        obtain ⟨rSub, rSound, rClosed, rUntouched, rOld, rNew, rLand, rStack⟩ :=
          ih (pushes.reverse ++ rest) vis1 reg1 hfuel2 hstack2 hpre2
        set out := floodLoop hs cols rows rid fuel (pushes.reverse ++ rest) vis1 reg1
          with hout
        refine ⟨?_, ?_, rClosed, ?_, ?_, ?_, ?_, ?_⟩
        · exact fun a ha => rSub (Finset.mem_insert_of_mem ha)
        · intro u hu
          rcases rSound u hu with h | ⟨t, ht, hc⟩
          · rcases Finset.mem_insert.mp h with rfl | h2
            · exact Or.inr ⟨u, List.mem_cons_self u rest, Relation.ReflTransGen.refl⟩
            · exact Or.inl h2
          · rcases List.mem_append.mp ht with h2 | h2
            · rw [List.mem_reverse, hpushmem] at h2
              refine Or.inr ⟨idx, List.mem_cons_self idx rest, ?_⟩
              exact Relation.ReflTransGen.head ⟨hidxland, h2.2.2, h2.1⟩ hc
            · exact Or.inr ⟨t, List.mem_cons_of_mem idx h2, hc⟩
        · intro j hj
          have hji : j ≠ idx := by
            intro h
            subst h
            exact hj (rSub (Finset.mem_insert_self j vis))
          rw [rUntouched j hj]
          simp only [hreg1]
          rw [if_neg hji]
        · intro j hj
          have hji : j ≠ idx := by
            intro h
            subst h
            exact hmem hj
          rw [rOld j (Finset.mem_insert_of_mem hj)]
          simp only [hreg1]
          rw [if_neg hji]
        · intro j hj hnj
          by_cases hji : j = idx
          · subst hji
            rw [rOld j (Finset.mem_insert_self j vis)]
            simp only [hreg1]
            simp
          · rw [rNew j hj (by
              rw [hvis1]
              intro h
              rcases Finset.mem_insert.mp h with h2 | h2
              · exact hji h2
              · exact hnj h2)]
        · intro u hu
          rcases rLand u hu with h | h
          · rcases Finset.mem_insert.mp h with rfl | h2
            · exact Or.inr ⟨hidxland, hidxB⟩
            · exact Or.inl h2
          · exact Or.inr h
        · intro t ht
          rcases List.mem_cons.mp ht with rfl | h2
          · exact rSub (Finset.mem_insert_self t vis)
          · exact rStack t (List.mem_append.mpr (Or.inr h2))

/-- Closure under one adjacency step extends to connectivity. -/
lemma conn_closed (hs : List Hex) (cols rows : ℕ) (vis : Finset ℕ)
    (hcl : ∀ u ∈ vis, ∀ w, adjStep hs cols rows u w → w ∈ vis) :
    ∀ u ∈ vis, ∀ v, Conn hs cols rows u v → v ∈ vis := by
  intro u hu v hconn
  induction hconn with
  | refl => exact hu
  | tail hab hbc ih => exact hcl _ ih _ hbc

/-- The flood fill never forgets a visited hex. -/
lemma floodLoop_vis_mono (hs : List Hex) (cols rows rid : ℕ) :
    ∀ (fuel : ℕ) (stack : List ℕ) (vis : Finset ℕ) (reg : ℕ → Option ℕ),
      vis ⊆ (floodLoop hs cols rows rid fuel stack vis reg).1
  | 0, _, vis, _ => Finset.Subset.refl vis
  | _ + 1, [], vis, _ => Finset.Subset.refl vis
  | fuel + 1, idx :: rest, vis, reg => by
    by_cases hmem : idx ∈ vis
    · rw [floodLoop, if_pos hmem]
      exact floodLoop_vis_mono hs cols rows rid fuel rest vis reg
    · rw [floodLoop, if_neg hmem]
      exact Finset.Subset.trans (Finset.subset_insert idx vis)
        (floodLoop_vis_mono hs cols rows rid fuel _ _ _)

/-- The outer scan only grows the visited set. -/
lemma labelFold_vis_mono (hs : List Hex) (cols rows : ℕ) :
    ∀ (l : List ℕ) (st : ℕ × Finset ℕ × (ℕ → Option ℕ)),
      st.2.1 ⊆ (l.foldl
        (fun (st : ℕ × Finset ℕ × (ℕ → Option ℕ)) i =>
          if landAt hs i && !(decide (i ∈ st.2.1)) then
            let out := floodLoop hs cols rows st.1 (floodFuel hs) [i] st.2.1 st.2.2
            (st.1 + 1, out)
          else st) st).2.1
  | [], st => Finset.Subset.refl _
  | a :: t, st => by
    rw [List.foldl_cons]
    by_cases ha : landAt hs a && !(decide (a ∈ st.2.1))
    · simp only [ha, if_true]
      exact Finset.Subset.trans
        (floodLoop_vis_mono hs cols rows st.1 (floodFuel hs) [a] st.2.1 st.2.2)
        (labelFold_vis_mono hs cols rows t
          (st.1 + 1, floodLoop hs cols rows st.1 (floodFuel hs) [a] st.2.1 st.2.2))
    · simp only [ha, if_false]
      exact labelFold_vis_mono hs cols rows t st

/-- The outer scan of `labelLandRegions` maintains: the visited set is
adjacency-closed land with assigned positive ids below the running id,
unvisited hexes have no id, two visited hexes share an id exactly when
connected, and every land index scanned so far has been visited. -/
lemma labelScan_inv (hs : List Hex) (cols rows : ℕ) (hwf : WFGrid hs cols rows) :
    ∀ (l : List ℕ) (st : ℕ × Finset ℕ × (ℕ → Option ℕ)),
      (∀ i ∈ l, i < hs.length) →
      1 ≤ st.1 →
      (∀ u ∈ st.2.1, ∀ w, adjStep hs cols rows u w → w ∈ st.2.1) →
      (∀ u ∈ st.2.1, landAt hs u = true ∧ u < cols * rows) →
      (∀ u ∈ st.2.1, ∃ k, st.2.2 u = some k ∧ 1 ≤ k ∧ k < st.1) →
      (∀ u, u ∉ st.2.1 → st.2.2 u = none) →
      (∀ u v, u ∈ st.2.1 → v ∈ st.2.1 → (st.2.2 u = st.2.2 v ↔ Conn hs cols rows u v)) →
      (∀ u ∈ (l.foldl
          (fun (st : ℕ × Finset ℕ × (ℕ → Option ℕ)) i =>
            if landAt hs i && !(decide (i ∈ st.2.1)) then
              let out := floodLoop hs cols rows st.1 (floodFuel hs) [i] st.2.1 st.2.2
              (st.1 + 1, out)
            else st) st).2.1,
          landAt hs u = true ∧ u < cols * rows)
      ∧ (∀ u ∈ (l.foldl
          (fun (st : ℕ × Finset ℕ × (ℕ → Option ℕ)) i =>
            if landAt hs i && !(decide (i ∈ st.2.1)) then
              let out := floodLoop hs cols rows st.1 (floodFuel hs) [i] st.2.1 st.2.2
              (st.1 + 1, out)
            else st) st).2.1,
          ∃ k, (l.foldl
            (fun (st : ℕ × Finset ℕ × (ℕ → Option ℕ)) i =>
              if landAt hs i && !(decide (i ∈ st.2.1)) then
                let out := floodLoop hs cols rows st.1 (floodFuel hs) [i] st.2.1 st.2.2
                (st.1 + 1, out)
              else st) st).2.2 u = some k ∧ 1 ≤ k)
      ∧ (∀ u, u ∉ (l.foldl
          (fun (st : ℕ × Finset ℕ × (ℕ → Option ℕ)) i =>
            if landAt hs i && !(decide (i ∈ st.2.1)) then
              let out := floodLoop hs cols rows st.1 (floodFuel hs) [i] st.2.1 st.2.2
              (st.1 + 1, out)
            else st) st).2.1 →
          (l.foldl
            (fun (st : ℕ × Finset ℕ × (ℕ → Option ℕ)) i =>
              if landAt hs i && !(decide (i ∈ st.2.1)) then
                let out := floodLoop hs cols rows st.1 (floodFuel hs) [i] st.2.1 st.2.2
                (st.1 + 1, out)
              else st) st).2.2 u = none)
      ∧ (∀ u v, u ∈ (l.foldl
          (fun (st : ℕ × Finset ℕ × (ℕ → Option ℕ)) i =>
            if landAt hs i && !(decide (i ∈ st.2.1)) then
              let out := floodLoop hs cols rows st.1 (floodFuel hs) [i] st.2.1 st.2.2
              (st.1 + 1, out)
            else st) st).2.1 →
          v ∈ (l.foldl
            (fun (st : ℕ × Finset ℕ × (ℕ → Option ℕ)) i =>
              if landAt hs i && !(decide (i ∈ st.2.1)) then
                let out := floodLoop hs cols rows st.1 (floodFuel hs) [i] st.2.1 st.2.2
                (st.1 + 1, out)
              else st) st).2.1 →
          ((l.foldl
            (fun (st : ℕ × Finset ℕ × (ℕ → Option ℕ)) i =>
              if landAt hs i && !(decide (i ∈ st.2.1)) then
                let out := floodLoop hs cols rows st.1 (floodFuel hs) [i] st.2.1 st.2.2
                (st.1 + 1, out)
              else st) st).2.2 u
            = (l.foldl
              (fun (st : ℕ × Finset ℕ × (ℕ → Option ℕ)) i =>
                if landAt hs i && !(decide (i ∈ st.2.1)) then
                  let out := floodLoop hs cols rows st.1 (floodFuel hs) [i] st.2.1 st.2.2
                  (st.1 + 1, out)
                else st) st).2.2 v
            ↔ Conn hs cols rows u v))
      ∧ (∀ i ∈ l, landAt hs i = true → i ∈ (l.foldl
          (fun (st : ℕ × Finset ℕ × (ℕ → Option ℕ)) i =>
            if landAt hs i && !(decide (i ∈ st.2.1)) then
              let out := floodLoop hs cols rows st.1 (floodFuel hs) [i] st.2.1 st.2.2
              (st.1 + 1, out)
            else st) st).2.1) := by
  intro l
  induction l with
  | nil =>
    intro st _ hrid hcl hland hassign hnone hiff
    exact ⟨hland, fun u hu => (hassign u hu).imp fun k hk => ⟨hk.1, hk.2.1⟩,
      hnone, hiff, fun i hi => absurd hi (List.not_mem_nil i)⟩
  | cons i t iht =>
    intro st hl hrid hcl hland hassign hnone hiff
    rw [List.foldl_cons]
    by_cases hcond : landAt hs i && !(decide (i ∈ st.2.1))
    · simp only [hcond, if_true]
      obtain ⟨hiland, hivis⟩ : landAt hs i = true ∧ i ∉ st.2.1 := by
        simpa using hcond
      have hiN : i < hs.length := hl i (List.mem_cons_self i t)
      have hiB : i < cols * rows := by rw [← hwf.1]; exact hiN
      have hfuel : ([i] : List ℕ).length
          + 6 * ((Finset.range (cols * rows) \ st.2.1).card) < floodFuel hs := by
        have hcard : (Finset.range (cols * rows) \ st.2.1).card ≤ cols * rows :=
          le_trans (Finset.card_le_card Finset.sdiff_subset) (by rw [Finset.card_range])
        rw [floodFuel, List.length_singleton, hwf.1]
        omega
      obtain ⟨rSub, rSound, rClosed, rUntouched, rOld, rNew, rLand, rStack⟩ :=
        floodLoop_spec hs cols rows st.1 hwf (floodFuel hs) [i] st.2.1 st.2.2 hfuel
          (by
            intro tt htt
            rw [List.mem_singleton] at htt
            subst htt
            exact ⟨hiB, hiland⟩)
          (fun u hu w hw => Or.inl (hcl u hu w hw))
      set out := floodLoop hs cols rows st.1 (floodFuel hs) [i] st.2.1 st.2.2 with hout
      have hconn_i : ∀ u ∈ out.1, u ∈ st.2.1 ∨ Conn hs cols rows i u := by
        intro u hu
        rcases rSound u hu with h | ⟨tt, htt, hc⟩
        · exact Or.inl h
        · rw [List.mem_singleton] at htt
          subst htt
          exact Or.inr hc
      have hres := iht (st.1 + 1, out)
        (fun j hj => hl j (List.mem_cons_of_mem i hj))
        (by omega)
        rClosed
        (by
          intro u hu
          rcases rLand u hu with h | h
          · exact hland u h
          · exact h)
        (by
          intro u hu
          by_cases huv : u ∈ st.2.1
          · obtain ⟨k, hk1, hk2, hk3⟩ := hassign u huv
            exact ⟨k, by rw [rOld u huv]; exact hk1, hk2, by omega⟩
          · exact ⟨st.1, rNew u hu huv, hrid, by omega⟩)
        (by
          intro u hunv
          have hus : u ∉ st.2.1 := fun h => hunv (rSub h)
          rw [rUntouched u hunv]
          exact hnone u hus)
        (by
          intro u v hu hv
          by_cases huv : u ∈ st.2.1 <;> by_cases hvv : v ∈ st.2.1
          · rw [rOld u huv, rOld v hvv]
            exact hiff u v huv hvv
          · rw [rOld u huv, rNew v hv hvv]
            obtain ⟨k, hk1, hk2, hk3⟩ := hassign u huv
            constructor
            · intro heq
              rw [hk1] at heq
              cases heq
              omega
            · intro hconn
              exact absurd (conn_closed hs cols rows st.2.1 hcl u huv v hconn) hvv
          · rw [rNew u hu huv, rOld v hvv]
            obtain ⟨k, hk1, hk2, hk3⟩ := hassign v hvv
            constructor
            · intro heq
              rw [hk1] at heq
              cases heq
              omega
            · intro hconn
              have hconn2 := Conn_symm hs cols rows hwf u v hconn
              exact absurd (conn_closed hs cols rows st.2.1 hcl v hvv u hconn2) huv
          · rw [rNew u hu huv, rNew v hv hvv]
            constructor
            · intro _
              rcases hconn_i u hu with h | hcu
              · exact absurd h huv
              rcases hconn_i v hv with h | hcv
              · exact absurd h hvv
              exact Relation.ReflTransGen.trans (Conn_symm hs cols rows hwf i u hcu) hcv
            · intro _
              rfl)
      refine ⟨hres.1, hres.2.1, hres.2.2.1, hres.2.2.2.1, ?_⟩
      intro j hj hjland
      rcases List.mem_cons.mp hj with rfl | hj2
      · exact labelFold_vis_mono hs cols rows t (st.1 + 1, out)
          (rStack j (List.mem_singleton.mpr (Eq.refl j)))
      · exact hres.2.2.2.2 j hj2 hjland
    · simp only [hcond, if_false]
      have hres := iht st (fun j hj => hl j (List.mem_cons_of_mem i hj)) hrid hcl
        hland hassign hnone hiff
      refine ⟨hres.1, hres.2.1, hres.2.2.1, hres.2.2.2.1, ?_⟩
      intro j hj hjland
      rcases List.mem_cons.mp hj with rfl | hj2
      · have hjvis : j ∈ st.2.1 := by
          by_contra hc
          exact hcond (by simp [hjland, hc])
        exact labelFold_vis_mono hs cols rows t st hjvis
      · exact hres.2.2.2.2 j hj2 hjland

/-- Indexing a `zipWith`: defined exactly when both sides are. -/
lemma zipWith_get? {α β γ : Type} (f : α → β → γ) :
    ∀ (a : List α) (b : List β) (i : ℕ),
      (List.zipWith f a b).get? i = match a.get? i, b.get? i with
        | some x, some y => some (f x y) | _, _ => none
  | [], _, _ => by simp
  | _ :: _, [], _ => by simp
  | _ :: _, _ :: _, 0 => rfl
  | _ :: xs, _ :: ys, i + 1 => by simpa using zipWith_get? f xs ys i

/-- A land flag can only be set inside the list. -/
lemma landAt_lt (hs : List Hex) (i : ℕ) (h : landAt hs i = true) : i < hs.length := by
  by_contra hc
  rw [landAt, List.get?_eq_none.mpr (le_of_not_lt hc)] at h
  simp at h

/-- `labelScan` summary: the visited set is exactly the land hexes, each
carries an id at least `1`, unvisited hexes carry none, and ids agree
exactly on connected pairs. -/
lemma labelScan_spec (hs : List Hex) (cols rows : ℕ) (hwf : WFGrid hs cols rows) :
    (∀ u ∈ (labelScan hs cols rows).1, landAt hs u = true ∧ u < cols * rows)
    ∧ (∀ u ∈ (labelScan hs cols rows).1,
        ∃ k, (labelScan hs cols rows).2 u = some k ∧ 1 ≤ k)
    ∧ (∀ u, u ∉ (labelScan hs cols rows).1 → (labelScan hs cols rows).2 u = none)
    ∧ (∀ u v, u ∈ (labelScan hs cols rows).1 → v ∈ (labelScan hs cols rows).1 →
        ((labelScan hs cols rows).2 u = (labelScan hs cols rows).2 v
          ↔ Conn hs cols rows u v))
    ∧ (∀ i, i < hs.length → landAt hs i = true → i ∈ (labelScan hs cols rows).1) := by
  have h := labelScan_inv hs cols rows hwf (List.range hs.length)
    (1, (∅ : Finset ℕ), fun _ => none)
    (fun i hi => List.mem_range.mp hi)
    le_rfl
    (fun u hu => absurd hu (Finset.not_mem_empty u))
    (fun u hu => absurd hu (Finset.not_mem_empty u))
    (fun u hu => absurd hu (Finset.not_mem_empty u))
    (fun _ _ => rfl)
    (fun u v hu _ => absurd hu (Finset.not_mem_empty u))
  exact ⟨h.1, h.2.1, h.2.2.1, h.2.2.2.1,
    fun i hi hl => h.2.2.2.2 i (List.mem_range.mpr hi) hl⟩

/-- Reading `labelLandRegions` back: the stored hex is the input hex with
its region replaced by the scan id when one was assigned. -/
lemma labelLandRegions_get? (hs : List Hex) (cols rows i : ℕ) (hx : Hex)
    (hg : hs.get? i = some hx) :
    (labelLandRegions hs cols rows).get? i
      = some (match (labelScan hs cols rows).2 i with
          | some k => { hx with region := some k }
          | none => hx) := by
  have hi : i < hs.length := by
    by_contra hc
    rw [List.get?_eq_none.mpr (le_of_not_lt hc)] at hg
    cases hg
  show ((List.range hs.length).zipWith _ hs).get? i = _
  rw [zipWith_get? _ _ _ i, List.get?_range hi, hg]

/-- C9: After `labelLandRegions` on a well-formed grid whose hexes carry no
prior region id, every land hex receives a region id that is at least `1`,
water hexes end with no region id, and two land hexes carry the same region
id if and only if a path of land hexes connects them under the
boundary-clipped 6-direction axial adjacency. -/
theorem claim_C9 (hs : List Hex) (cols rows : ℕ) (hwf : WFGrid hs cols rows)
    (hreg0 : ∀ i, regionAt hs i = none) :
    (∀ i, landAt hs i = true →
      ∃ k, regionAt (labelLandRegions hs cols rows) i = some k ∧ 1 ≤ k)
    ∧ (∀ i, landAt hs i = false →
      regionAt (labelLandRegions hs cols rows) i = none)
    ∧ (∀ i j, landAt hs i = true → landAt hs j = true →
      (regionAt (labelLandRegions hs cols rows) i
        = regionAt (labelLandRegions hs cols rows) j
        ↔ Conn hs cols rows i j)) := by
  obtain ⟨hland, hassign, hnone, hiff, hvisAll⟩ := labelScan_spec hs cols rows hwf
  refine ⟨?_, ?_, ?_⟩
  · intro i hil
    have hi : i < hs.length := landAt_lt hs i hil
    cases hgx : hs.get? i with
    | none => rw [List.get?_eq_none] at hgx; omega
    | some hx =>
      obtain ⟨k, hk, hk1⟩ := hassign i (hvisAll i hi hil)
      refine ⟨k, ?_, hk1⟩
      rw [regionAt, labelLandRegions_get? hs cols rows i hx hgx, hk]
      rfl
  · intro i hil
    by_cases hi : i < hs.length
    · cases hgx : hs.get? i with
      | none => rw [List.get?_eq_none] at hgx; omega
      | some hx =>
        have hnv : i ∉ (labelScan hs cols rows).1 := by
          intro h
          have := (hland i h).1
          rw [hil] at this
          cases this
        have hxr : hx.region = none := by
          have h0 := hreg0 i
          rw [regionAt, hgx] at h0
          simpa using h0
        rw [regionAt, labelLandRegions_get? hs cols rows i hx hgx, hnone i hnv]
        simpa using hxr
    · rw [regionAt, List.get?_eq_none.mpr ?_]
      · rfl
      · show ((List.range hs.length).zipWith _ hs).length ≤ i
        rw [List.length_zipWith, List.length_range, min_self]
        omega
  · intro i j hil hjl
    have hi : i < hs.length := landAt_lt hs i hil
    have hj : j < hs.length := landAt_lt hs j hjl
    have hivis := hvisAll i hi hil
    have hjvis := hvisAll j hj hjl
    have hri : regionAt (labelLandRegions hs cols rows) i = (labelScan hs cols rows).2 i := by
      cases hgx : hs.get? i with
      | none => rw [List.get?_eq_none] at hgx; omega
      | some hx =>
        obtain ⟨k, hk, _⟩ := hassign i hivis
        rw [regionAt, labelLandRegions_get? hs cols rows i hx hgx, hk]
        rfl
    have hrj : regionAt (labelLandRegions hs cols rows) j = (labelScan hs cols rows).2 j := by
      cases hgy : hs.get? j with
      | none => rw [List.get?_eq_none] at hgy; omega
      | some hy =>
        obtain ⟨k, hk, _⟩ := hassign j hjvis
        rw [regionAt, labelLandRegions_get? hs cols rows j hy hgy, hk]
        rfl
    rw [hri, hrj]
    exact hiff i j hivis hjvis

/-- Witness for C9 on the concrete grid: both hexes are labelled with a
positive id and share it exactly because they are adjacent land. -/
theorem claim_C9_witness :
    (∃ k, regionAt (labelLandRegions labelGrid2 2 1) 0 = some k ∧ 1 ≤ k)
    ∧ (regionAt (labelLandRegions labelGrid2 2 1) 0
        = regionAt (labelLandRegions labelGrid2 2 1) 1
      ↔ Conn labelGrid2 2 1 0 1) :=
  ⟨(claim_C9 labelGrid2 2 1 (by decide)
      (by intro i; match i with | 0 => rfl | 1 => rfl | n + 2 => rfl)).1 0 (by decide),
   (claim_C9 labelGrid2 2 1 (by decide)
      (by intro i; match i with | 0 => rfl | 1 => rfl | n + 2 => rfl)).2.2 0 1
      (by decide) (by decide)⟩

/-- Invariant of the octave loop under nonnegative persistence and
`[-1,1]`-bounded noise: the amplitude stays nonnegative and the noise
sum stays within `[0, maxAmp]`, while `maxAmp` only grows (by at least
the incoming amplitude as soon as one layer runs). -/
lemma octaveFold_inv (noise : ℚ → ℚ → ℚ) (cfg : HexMapConfig) (x y : ℚ)
    (hn : ∀ a b, -1 ≤ noise a b ∧ noise a b ≤ 1)
    (hper : 0 ≤ cfg.persistence) :
    ∀ (l : List ℕ) (st : ℚ × ℚ × ℚ × ℚ),
      0 ≤ st.1 → 0 ≤ st.2.2.1 → st.2.2.1 ≤ st.2.2.2 →
      0 ≤ (l.foldl (octaveStep noise cfg x y) st).1
      ∧ 0 ≤ (l.foldl (octaveStep noise cfg x y) st).2.2.1
      ∧ (l.foldl (octaveStep noise cfg x y) st).2.2.1
          ≤ (l.foldl (octaveStep noise cfg x y) st).2.2.2
      ∧ st.2.2.2 ≤ (l.foldl (octaveStep noise cfg x y) st).2.2.2
      ∧ (l ≠ [] → st.2.2.2 + st.1 ≤ (l.foldl (octaveStep noise cfg x y) st).2.2.2)
  | [], st => by
    intro h1 h2 h3
    exact ⟨h1, h2, h3, le_rfl, fun h => absurd rfl h⟩
  | a :: t, st => by
    intro h1 h2 h3
    rw [List.foldl_cons]
    have hb := hn (x / cfg.noiseScale * st.2.1) (y / cfg.noiseScale * st.2.1)
    have hn0 : 0 ≤ noise (x / cfg.noiseScale * st.2.1) (y / cfg.noiseScale * st.2.1)
        * (1/2) + 1/2 := by linarith [hb.1]
    have hn1 : noise (x / cfg.noiseScale * st.2.1) (y / cfg.noiseScale * st.2.1)
        * (1/2) + 1/2 ≤ 1 := by linarith [hb.2]
    have e1 : 0 ≤ (octaveStep noise cfg x y st a).1 := mul_nonneg h1 hper
    have e2 : 0 ≤ (octaveStep noise cfg x y st a).2.2.1 :=
      add_nonneg h2 (mul_nonneg hn0 h1)
    have e3 : (octaveStep noise cfg x y st a).2.2.1
        ≤ (octaveStep noise cfg x y st a).2.2.2 := by
      show st.2.2.1 + _ * st.1 ≤ st.2.2.2 + st.1
      have := mul_le_mul_of_nonneg_right hn1 h1
      rw [one_mul] at this
      linarith
    obtain ⟨g1, g2, g3, g4, g5⟩ :=
      octaveFold_inv noise cfg x y hn hper t (octaveStep noise cfg x y st a) e1 e2 e3
    have hstep : (octaveStep noise cfg x y st a).2.2.2 = st.2.2.2 + st.1 := rfl
    rw [hstep] at g4 g5
    exact ⟨g1, g2, g3, by linarith, fun _ => g4⟩

/-- With at least one octave, nonnegative persistence and bounded
noise, `noiseHeight` lands in `[0,1]`. -/
lemma noiseHeight_mem (noise : ℚ → ℚ → ℚ) (cfg : HexMapConfig) (x y : ℚ)
    (hn : ∀ a b, -1 ≤ noise a b ∧ noise a b ≤ 1)
    (hper : 0 ≤ cfg.persistence) (hoct : 1 ≤ cfg.octaves) :
    0 ≤ noiseHeight noise cfg x y ∧ noiseHeight noise cfg x y ≤ 1 := by
  obtain ⟨g1, g2, g3, g4, g5⟩ := octaveFold_inv noise cfg x y hn hper
    (List.range cfg.octaves) (1, 1, 0, 0) (by norm_num) (by norm_num) (by norm_num)
  have hne : List.range cfg.octaves ≠ [] := by
    intro h
    have := congrArg List.length h
    rw [List.length_range] at this
    simp at this
    omega
  have hmax : (1 : ℚ) ≤ (octaveState noise cfg x y).2.2.2 := by
    have h6 : (0 : ℚ) + 1
        ≤ ((List.range cfg.octaves).foldl (octaveStep noise cfg x y) (1, 1, 0, 0)).2.2.2 :=
      g5 hne
    rw [octaveState]
    linarith
  simp only [noiseHeight]
  constructor
  · exact div_nonneg g2 (by linarith)
  · rw [div_le_one (by linarith)]
    exact g3

/-- When the squared distance to the map center does not exceed the
squared center norm, the radial falloff lands in `[0,1]`. -/
lemma gradientAt_mem (sqrtQ : ℚ → ℚ) (s3 : ℚ) (cfg : HexMapConfig) (x y : ℚ)
    (hsq0 : ∀ a, 0 ≤ a → 0 ≤ sqrtQ a)
    (hsqm : ∀ a b, 0 ≤ a → a ≤ b → sqrtQ a ≤ sqrtQ b)
    (hle : (x - centerX s3 cfg) * (x - centerX s3 cfg)
        + (y - centerY cfg) * (y - centerY cfg)
      ≤ centerX s3 cfg * centerX s3 cfg + centerY cfg * centerY cfg) :
    0 ≤ gradientAt sqrtQ s3 cfg x y ∧ gradientAt sqrtQ s3 cfg x y ≤ 1 := by
  have hd2 : 0 ≤ (x - centerX s3 cfg) * (x - centerX s3 cfg)
      + (y - centerY cfg) * (y - centerY cfg) :=
    add_nonneg (mul_self_nonneg _) (mul_self_nonneg _)
  have hdist0 := hsq0 _ hd2
  have hdistle := hsqm _ _ hd2 hle
  have hmax0 : 0 ≤ sqrtQ (centerX s3 cfg * centerX s3 cfg + centerY cfg * centerY cfg) :=
    le_trans hdist0 hdistle
  simp only [gradientAt]
  rcases eq_or_lt_of_le hmax0 with he | hpos
  · rw [← he, div_zero]
    norm_num
  · have ht0 : 0 ≤ sqrtQ ((x - centerX s3 cfg) * (x - centerX s3 cfg)
        + (y - centerY cfg) * (y - centerY cfg))
        / sqrtQ (centerX s3 cfg * centerX s3 cfg + centerY cfg * centerY cfg) :=
      div_nonneg hdist0 (le_of_lt hpos)
    have ht1 : sqrtQ ((x - centerX s3 cfg) * (x - centerX s3 cfg)
        + (y - centerY cfg) * (y - centerY cfg))
        / sqrtQ (centerX s3 cfg * centerX s3 cfg + centerY cfg * centerY cfg) ≤ 1 :=
      (div_le_one hpos).mpr hdistle
    exact ⟨pow_nonneg (by linarith) _, pow_le_one₀ (by linarith) (by linarith)⟩

/-- Every in-grid hex center is no farther from the map center than the
origin is: the squared-distance bound that feeds `gradientAt_mem`. -/
lemma hex_dist_bound (s3 : ℚ) (cfg : HexMapConfig) (q r : ℕ)
    (hq : q < cfg.cols) (hr : r < cfg.rows)
    (hrad : 0 ≤ cfg.radius) (hs3 : 0 ≤ s3) :
    (pixelX s3 cfg q r - centerX s3 cfg) * (pixelX s3 cfg q r - centerX s3 cfg)
      + (pixelY cfg r - centerY cfg) * (pixelY cfg r - centerY cfg)
    ≤ centerX s3 cfg * centerX s3 cfg + centerY cfg * centerY cfg := by
  have hR : 0 ≤ cfg.radius * s3 := mul_nonneg hrad hs3
  have hx1 : pixelX s3 cfg q r
      = cfg.radius * s3 * ((q : ℚ) + (1/2) * ((r % 2 : ℕ) : ℚ)) := rfl
  have hcx : centerX s3 cfg = cfg.radius * s3 * ((cfg.cols : ℚ) / 2) := by
    rw [centerX]; ring
  have ht0 : 0 ≤ (q : ℚ) + (1/2) * ((r % 2 : ℕ) : ℚ) := by positivity
  have ht1 : (q : ℚ) + (1/2) * ((r % 2 : ℕ) : ℚ) ≤ (cfg.cols : ℚ) := by
    have h2 : ((q : ℚ) + 1) ≤ (cfg.cols : ℚ) := by exact_mod_cast hq
    have h3 : ((r % 2 : ℕ) : ℚ) ≤ 1 := by
      have : r % 2 ≤ 1 := Nat.le_of_lt_succ (Nat.mod_lt r (by norm_num))
      exact_mod_cast this
    linarith
  have hmulu := mul_le_mul_of_nonneg_left ht1 hR
  have hmull := mul_nonneg hR ht0
  have hsplit : cfg.radius * s3 * ((cfg.cols : ℚ) / 2)
      + cfg.radius * s3 * ((cfg.cols : ℚ) / 2) = cfg.radius * s3 * (cfg.cols : ℚ) := by
    ring
  have hdxu : pixelX s3 cfg q r - centerX s3 cfg ≤ centerX s3 cfg := by
    rw [hx1, hcx]; linarith
  have hdxl : -(centerX s3 cfg) ≤ pixelX s3 cfg q r - centerX s3 cfg := by
    rw [hx1, hcx]; linarith
  have hy1 : pixelY cfg r = cfg.radius * (3/2) * (r : ℚ) := rfl
  have hcy : centerY cfg = cfg.radius * (3/2) * ((cfg.rows : ℚ) / 2) := by
    rw [centerY]; ring
  have hS : 0 ≤ cfg.radius * (3/2) := by linarith
  have hu0 : (0 : ℚ) ≤ (r : ℚ) := by positivity
  have hu1 : (r : ℚ) ≤ (cfg.rows : ℚ) := by
    have : ((r : ℚ) + 1) ≤ (cfg.rows : ℚ) := by exact_mod_cast hr
    linarith
  have hmyu := mul_le_mul_of_nonneg_left hu1 hS
  have hmyl := mul_nonneg hS hu0
  have hsplity : cfg.radius * (3/2) * ((cfg.rows : ℚ) / 2)
      + cfg.radius * (3/2) * ((cfg.rows : ℚ) / 2) = cfg.radius * (3/2) * (cfg.rows : ℚ) := by
    ring
  have hdyu : pixelY cfg r - centerY cfg ≤ centerY cfg := by
    rw [hy1, hcy]; linarith
  have hdyl : -(centerY cfg) ≤ pixelY cfg r - centerY cfg := by
    rw [hy1, hcy]; linarith
  have hcx0 : 0 ≤ centerX s3 cfg := by
    rw [hcx]; exact mul_nonneg hR (by positivity)
  have hcy0 : 0 ≤ centerY cfg := by
    rw [hcy]; exact mul_nonneg hS (by positivity)
  nlinarith [mul_nonneg (by linarith : (0:ℚ) ≤ centerX s3 cfg - (pixelX s3 cfg q r - centerX s3 cfg))
      (by linarith : (0:ℚ) ≤ centerX s3 cfg + (pixelX s3 cfg q r - centerX s3 cfg)),
    mul_nonneg (by linarith : (0:ℚ) ≤ centerY cfg - (pixelY cfg r - centerY cfg))
      (by linarith : (0:ℚ) ≤ centerY cfg + (pixelY cfg r - centerY cfg))]

/-- The blended elevation of one hex center lies in `[0,1]` under the
amended hypotheses. -/
lemma elevationAt_mem (noise : ℚ → ℚ → ℚ) (sqrtQ : ℚ → ℚ) (s3 : ℚ)
    (cfg : HexMapConfig) (x y : ℚ)
    (hn : ∀ a b, -1 ≤ noise a b ∧ noise a b ≤ 1)
    (hper : 0 ≤ cfg.persistence) (hoct : 1 ≤ cfg.octaves)
    (hsq0 : ∀ a, 0 ≤ a → 0 ≤ sqrtQ a)
    (hsqm : ∀ a b, 0 ≤ a → a ≤ b → sqrtQ a ≤ sqrtQ b)
    (hle : (x - centerX s3 cfg) * (x - centerX s3 cfg)
        + (y - centerY cfg) * (y - centerY cfg)
      ≤ centerX s3 cfg * centerX s3 cfg + centerY cfg * centerY cfg)
    (hnw : 0 ≤ cfg.noiseWeight) (hsw : 0 ≤ cfg.shapeWeight)
    (hw : 0 < cfg.noiseWeight + cfg.shapeWeight) :
    0 ≤ elevationAt noise sqrtQ s3 cfg x y ∧ elevationAt noise sqrtQ s3 cfg x y ≤ 1 := by
  obtain ⟨a1, a2⟩ := noiseHeight_mem noise cfg x y hn hper hoct
  obtain ⟨b1, b2⟩ := gradientAt_mem sqrtQ s3 cfg x y hsq0 hsqm hle
  rw [elevationAt]
  constructor
  · exact div_nonneg (add_nonneg (mul_nonneg a1 hnw) (mul_nonneg b1 hsw)) (le_of_lt hw)
  · rw [div_le_one hw]
    have c1 := mul_le_mul_of_nonneg_right a2 hnw
    have c2 := mul_le_mul_of_nonneg_right b2 hsw
    rw [one_mul] at c1 c2
    linarith

/-- C5 (amended): with bounded noise, at least one octave, nonnegative
persistence, nonnegative weights with positive sum, nonnegative radius
and `sqrt(3)` stand-in, and a monotone nonnegative square root, every
hex of the raw elevation field has elevation in `[0,1]`.  The claim as
stated omits the persistence, radius and square-root conditions; with a
negative persistence the normalizing `maxAmp` can shrink below the
accumulated noise and the elevation escapes `[0,1]`
(`claim_C5_counterexample`). -/
theorem claim_C5 (noise : ℚ → ℚ → ℚ) (sqrtQ : ℚ → ℚ) (s3 : ℚ) (cfg : HexMapConfig)
    (hn : ∀ a b, -1 ≤ noise a b ∧ noise a b ≤ 1)
    (hoct : 1 ≤ cfg.octaves)
    (hper : 0 ≤ cfg.persistence)
    (hnw : 0 ≤ cfg.noiseWeight)
    (hsw : 0 ≤ cfg.shapeWeight)
    (hw : 0 < cfg.noiseWeight + cfg.shapeWeight)
    (hrad : 0 ≤ cfg.radius)
    (hs3 : 0 ≤ s3)
    (hsq0 : ∀ a, 0 ≤ a → 0 ≤ sqrtQ a)
    (hsqm : ∀ a b, 0 ≤ a → a ≤ b → sqrtQ a ≤ sqrtQ b) :
    ∀ h ∈ rawHexes noise sqrtQ s3 cfg, 0 ≤ h.elevation ∧ h.elevation ≤ 1 := by
  intro h hmem
  rw [rawHexes, List.mem_flatten] at hmem
  obtain ⟨row, hrow, hh⟩ := hmem
  rw [List.mem_map] at hrow
  obtain ⟨r, hr, rfl⟩ := hrow
  rw [List.mem_map] at hh
  obtain ⟨q, hq, rfl⟩ := hh
  rw [List.mem_range] at hr hq
  exact elevationAt_mem noise sqrtQ s3 cfg (pixelX s3 cfg q r) (pixelY cfg r)
    hn hper hoct hsq0 hsqm (hex_dist_bound s3 cfg q r hq hr hrad hs3) hnw hsw hw

/-- Counterexample to C5 as stated: the config satisfies every
condition the claim names (noise bounded in `[-1,1]`, nonnegative
weights not both zero, `octaves ≥ 1`), yet the hex in row 2 of the
generated field has elevation `-1 < 0`, because the negative
persistence makes `maxAmp = 1/2` while `noiseSum = -1/2`. -/
theorem claim_C5_counterexample :
    (∀ a b, -1 ≤ cexNoise a b ∧ cexNoise a b ≤ 1)
    ∧ 0 ≤ cexCfg.noiseWeight ∧ 0 ≤ cexCfg.shapeWeight
    ∧ 0 < cexCfg.noiseWeight + cexCfg.shapeWeight
    ∧ 1 ≤ cexCfg.octaves
    ∧ ∃ h ∈ rawHexes cexNoise cexSqrt (26/15) cexCfg, h.elevation < 0 := by
  refine ⟨?_, by norm_num [cexCfg], by norm_num [cexCfg], by norm_num [cexCfg],
    by norm_num [cexCfg], ?_⟩
  · intro a b
    rw [cexNoise]
    split <;> norm_num
  · refine ⟨_, List.mem_flatten.mpr ⟨_, List.mem_map.mpr ⟨2, by decide, rfl⟩,
      List.mem_map.mpr ⟨0, by decide, rfl⟩⟩, ?_⟩
    show elevationAt cexNoise cexSqrt (26/15) cexCfg
      (pixelX (26/15) cexCfg 0 2) (pixelY cexCfg 2) < 0
    norm_num [elevationAt, noiseHeight, octaveState, octaveStep, pixelX, pixelY,
      cexCfg, cexNoise, List.range_succ, List.foldl_append, List.foldl_cons,
      List.foldl_nil]

/-- Witness for the amended C5: on a one-hex map with constant noise and
the `max · 0` square root, the produced elevation lies in `[0,1]`. -/
theorem claim_C5_witness :
    ∃ h, h ∈ rawHexes witNoise cexSqrt (26/15) witCfg
      ∧ 0 ≤ h.elevation ∧ h.elevation ≤ 1 := by
  refine ⟨_, List.mem_flatten.mpr ⟨_, List.mem_map.mpr ⟨0, by decide, rfl⟩,
    List.mem_map.mpr ⟨0, by decide, rfl⟩⟩, ?_⟩
  exact claim_C5 witNoise cexSqrt (26/15) witCfg
    (fun a b => by norm_num [witNoise])
    (by norm_num [witCfg])
    (by norm_num [witCfg])
    (by norm_num [witCfg])
    (by norm_num [witCfg])
    (by norm_num [witCfg])
    (by norm_num [witCfg])
    (by norm_num)
    (fun a ha => le_max_right a 0)
    (fun a b ha hab => max_le_max hab le_rfl)
    _
    (List.mem_flatten.mpr ⟨_, List.mem_map.mpr ⟨0, by decide, rfl⟩,
      List.mem_map.mpr ⟨0, by decide, rfl⟩⟩)

/-- One open Chaikin pass on at least two points starts at the blend
`3/4·p0 + 1/4·p1`, not at `p0`. -/
lemma chaikinOpenPass_head (pts : List Point) (h2 : 2 ≤ pts.length) :
    (chaikinOpenPass pts).head?
      = some ⟨3/4 * (pts.getD 0 ⟨0, 0⟩).x + 1/4 * (pts.getD 1 ⟨0, 0⟩).x,
          3/4 * (pts.getD 0 ⟨0, 0⟩).y + 1/4 * (pts.getD 1 ⟨0, 0⟩).y⟩ := by
  have hk : pts.length - 1 = (pts.length - 2) + 1 := by omega
  rw [chaikinOpenPass, hk, List.range_succ_eq_map, List.map_cons, List.flatten_cons]
  rfl

/-- One open Chaikin pass on at least two points ends at the blend
`1/4·p(n-2) + 3/4·p(n-1)`, not at `p(n-1)`. -/
lemma chaikinOpenPass_last (pts : List Point) (h2 : 2 ≤ pts.length) :
    (chaikinOpenPass pts).getLast?
      = some ⟨1/4 * (pts.getD (pts.length - 2) ⟨0, 0⟩).x
            + 3/4 * (pts.getD (pts.length - 1) ⟨0, 0⟩).x,
          1/4 * (pts.getD (pts.length - 2) ⟨0, 0⟩).y
            + 3/4 * (pts.getD (pts.length - 1) ⟨0, 0⟩).y⟩ := by
  have hk : pts.length - 1 = (pts.length - 2) + 1 := by omega
  rw [chaikinOpenPass, hk, List.range_succ, List.map_append, List.flatten_append,
    List.getLast?_append]
  simp only [List.map_cons, List.map_nil, List.flatten_cons, List.flatten_nil,
    List.append_nil]
  have h1 : pts.length - 2 + 1 = pts.length - 1 := by omega
  rw [h1]
  rfl

/-- C7 (amended): every polyline `generateRivers` returns carries the
open-variant Chaikin smoothing of a raw traced path (some source hex's
trace), and the open pass subdivides exactly the `n-1` consecutive edges
with no wrap-around; but the pass does not preserve endpoints: the
smoothed polyline starts at `3/4·p0 + 1/4·p1` and ends at
`1/4·p(n-2) + 3/4·p(n-1)`. -/
theorem claim_C7 (hexes : List Hex) (cfg : RiverConfig) :
    (∀ poly ∈ (generateRivers hexes cfg).riverPolylines,
      ∃ src : ℕ, poly.path
        = chaikinSmoothOpen
            (traceFrom hexes (flowNext hexes cfg.cols cfg.rows) cfg.cols cfg.rows
              (cfg.cols + cfg.rows + 2) (some src) []) cfg.smooth)
    ∧ (∀ pts : List Point, (chaikinOpenPass pts).length = 2 * (pts.length - 1))
    ∧ (∀ pts : List Point, 2 ≤ pts.length →
        (chaikinOpenPass pts).head?
          = some ⟨3/4 * (pts.getD 0 ⟨0, 0⟩).x + 1/4 * (pts.getD 1 ⟨0, 0⟩).x,
              3/4 * (pts.getD 0 ⟨0, 0⟩).y + 1/4 * (pts.getD 1 ⟨0, 0⟩).y⟩)
    ∧ (∀ pts : List Point, 2 ≤ pts.length →
        (chaikinOpenPass pts).getLast?
          = some ⟨1/4 * (pts.getD (pts.length - 2) ⟨0, 0⟩).x
                + 3/4 * (pts.getD (pts.length - 1) ⟨0, 0⟩).x,
              1/4 * (pts.getD (pts.length - 2) ⟨0, 0⟩).y
                + 3/4 * (pts.getD (pts.length - 1) ⟨0, 0⟩).y⟩) := by
  refine ⟨?_, chaikinOpenPass_length, chaikinOpenPass_head, chaikinOpenPass_last⟩
  intro poly hmem
  simp only [generateRivers] at hmem
  rcases List.mem_append.mp hmem with hm | hm
  · rcases List.mem_append.mp hm with hm1 | hm1
    · obtain ⟨src, _, heq⟩ := List.mem_filterMap.mp hm1
      by_cases hc : 4 < (traceFrom hexes (flowNext hexes cfg.cols cfg.rows) cfg.cols cfg.rows
          (cfg.cols + cfg.rows + 2) (some src) []).length
      · rw [if_pos hc] at heq
        exact ⟨src, by rw [← Option.some_inj.mp heq]⟩
      · rw [if_neg hc] at heq
        cases heq
    · obtain ⟨src, _, heq⟩ := List.mem_filterMap.mp hm1
      by_cases hc : 3 < (traceFrom hexes (flowNext hexes cfg.cols cfg.rows) cfg.cols cfg.rows
          (cfg.cols + cfg.rows + 2) (some src) []).length
      · rw [if_pos hc] at heq
        exact ⟨src, by rw [← Option.some_inj.mp heq]⟩
      · rw [if_neg hc] at heq
        cases heq
  · obtain ⟨src, _, heq⟩ := List.mem_filterMap.mp hm
    by_cases hc : 2 < (traceFrom hexes (flowNext hexes cfg.cols cfg.rows) cfg.cols cfg.rows
        (cfg.cols + cfg.rows + 2) (some src) []).length
    · rw [if_pos hc] at heq
      exact ⟨src, by rw [← Option.some_inj.mp heq]⟩
    · rw [if_neg hc] at heq
      cases heq

/-- Counterexample to C7 as stated: with one smoothing pass the single
returned river polyline starts at `(1/4, 0)`, not at the source hex's
pixel center `(0, 0)` that heads the raw traced path. -/
theorem claim_C7_counterexample :
    traceFrom riverGrid5 (flowNext riverGrid5 rCfg5.cols rCfg5.rows) rCfg5.cols rCfg5.rows
        (rCfg5.cols + rCfg5.rows + 2) (some 0) [] = rawPath5
    ∧ rawPath5.head? = some ⟨0, 0⟩
    ∧ ((generateRivers riverGrid5 rCfg5).riverPolylines.map fun p => p.path.head?)
      = [some ⟨1/4, 0⟩]
    ∧ (⟨1/4, 0⟩ : Point) ≠ ⟨0, 0⟩ := by
  have htr : traceFrom riverGrid5 (flowNext riverGrid5 rCfg5.cols rCfg5.rows) rCfg5.cols
      rCfg5.rows (rCfg5.cols + rCfg5.rows + 2) (some 0) [] = rawPath5 := by decide
  refine ⟨htr, rfl, ?_, by simp [Point.mk.injEq]⟩
  have hprim : primarySources riverGrid5 rCfg5 = [0] := by decide
  have hsec : tierScan riverGrid5 rCfg5.cols rCfg5.rows rCfg5.secondaryStreamAccum
      rCfg5.mainRiverAccum ([0] : List ℕ).toFinset = ({0}, []) := by decide
  have htert : (tierScan riverGrid5 rCfg5.cols rCfg5.rows rCfg5.tertiaryStreamAccum
      rCfg5.secondaryStreamAccum ({0} : Finset ℕ)).2 = [] := by decide
  simp only [generateRivers, hprim, hsec, htert, List.filterMap_nil, List.filterMap_cons,
    htr, List.append_nil]
  norm_num [rawPath5]
  have hsm : rCfg5.smooth = 1 := rfl
  rw [hsm, chaikinSmoothOpen, Function.iterate_one,
    chaikinOpenPass_head _ (by norm_num)]
  norm_num

/-- Witness for the amended C7 on the concrete raw path: one open pass
starts at the blend of the first two points. -/
theorem claim_C7_witness :
    2 ≤ rawPath5.length
    ∧ (chaikinOpenPass rawPath5).head?
      = some ⟨3/4 * (rawPath5.getD 0 ⟨0, 0⟩).x + 1/4 * (rawPath5.getD 1 ⟨0, 0⟩).x,
          3/4 * (rawPath5.getD 0 ⟨0, 0⟩).y + 1/4 * (rawPath5.getD 1 ⟨0, 0⟩).y⟩ :=
  ⟨by decide, (claim_C7 riverGrid5 rCfg5).2.2.1 rawPath5 (by decide)⟩

end WorldGen
